import Mathlib

/-!
Verification of the paperback repository's Shamir secret-sharing core
(`pkg/polynomial`, `pkg/shamir`, `pkg/crypto`) against its specification.

The Go sources are shallowly embedded: `big.Int` becomes `Int`, byte slices
become `List Nat` (with `< 256` well-formedness hypotheses where needed),
fallible functions return `Except`/`Option`, Go's two-value returns
`(data, err)` become pairs, and reachable Go panics (nil `big.Int`
dereference after a failed `ModInverse`, index out of range) are modelled as
an explicit `panicked` outcome.  Randomized operations (`rand.Int`,
`rand.Prime`, `ed25519.GenerateKey`) are modelled by threading an explicit
tape of drawn values; the guarantees of the samplers (ranges, key sizes)
appear as hypotheses of the theorems.
-/

set_option maxRecDepth 8000

deriving instance DecidableEq for Except

namespace Paperback

/-- Big-endian interpretation of a byte slice; models Go `big.Int.SetBytes`. -/
def bytesToNat (l : List Nat) : Nat :=
  l.foldl (fun a b => a * 256 + b) 0

/-- Fuel-driven core of `natBytes` (the fuel only bounds the recursion depth;
`natBytes` always supplies enough). -/
def natBytesAux : Nat → Nat → List Nat
  | 0, _ => []
  | fuel + 1, n => if n = 0 then [] else natBytesAux fuel (n / 256) ++ [n % 256]

/-- Minimal big-endian bytes of a natural number; models Go `big.Int.Bytes`
(which returns the absolute value's bytes, empty for zero). -/
def natBytes (n : Nat) : List Nat := natBytesAux n n

/-- `paddedBigint` from `pkg/shamir` (part_009): left-pads the big-endian byte
representation of `x` with zeros up to `minLength`; never truncates. -/
def paddedBigint (x : Int) (minLength : Nat) : List Nat :=
  let b := natBytes x.natAbs
  if b.length < minLength then List.replicate (minLength - b.length) 0 ++ b else b

/-- Fuel-driven core of `blockBytes` (the fuel bounds the number of chunks). -/
def blockBytesAux : Nat → List Nat → Nat → List (List Nat)
  | 0, _, _ => []
  | fuel + 1, data, size =>
    if data = [] then [] else data.take size :: blockBytesAux fuel (data.drop size) size

/-- `blockBytes` from `pkg/shamir`: splits `data` into `size`-byte blocks, the
trailing block possibly short. -/
def blockBytes (data : List Nat) (size : Nat) : List (List Nat) :=
  blockBytesAux data.length data size

/-- The chunk-reassembly loop shared by both `Combine` variants: each chunk is
rendered with `paddedBigint` at minimum length `blockSize`, except the last
chunk which uses `size % blockSize`. -/
def rebuildChunks (size blockSize : Nat) : List Int → List Nat
  | [] => []
  | [c] => paddedBigint c (size % blockSize)
  | c :: rest => paddedBigint c blockSize ++ rebuildChunks size blockSize rest

/-! ### Base64 (model of Go `encoding/base64` StdEncoding, at the byte level) -/

/-- The standard base64 alphabet: index `i < 64` to ASCII byte. -/
def b64Byte (i : Nat) : Nat :=
  if i < 26 then 65 + i
  else if i < 52 then 97 + (i - 26)
  else if i < 62 then 48 + (i - 52)
  else if i = 62 then 43
  else 47

/-- Partial inverse of `b64Byte`. -/
def b64Val (c : Nat) : Option Nat :=
  if 65 ≤ c ∧ c ≤ 90 then some (c - 65)
  else if 97 ≤ c ∧ c ≤ 122 then some (26 + (c - 97))
  else if 48 ≤ c ∧ c ≤ 57 then some (52 + (c - 48))
  else if c = 43 then some 62
  else if c = 47 then some 63
  else none

/-- Standard base64 encoding of a byte list, producing the ASCII bytes of the
encoded string (61 is the padding character `=`). -/
def b64encode : List Nat → List Nat
  | [] => []
  | [b1] => [b64Byte (b1 / 4), b64Byte (b1 % 4 * 16), 61, 61]
  | [b1, b2] => [b64Byte (b1 / 4), b64Byte (b1 % 4 * 16 + b2 / 16), b64Byte (b2 % 16 * 4), 61]
  | b1 :: b2 :: b3 :: rest =>
    b64Byte (b1 / 4) :: b64Byte (b1 % 4 * 16 + b2 / 16) ::
      b64Byte (b2 % 16 * 4 + b3 / 64) :: b64Byte (b3 % 64) :: b64encode rest

/-- Standard base64 decoding (of the ASCII bytes of an encoded string):
groups of four characters, with `=` padding (61) allowed in the final group
only. -/
def b64decode : List Nat → Option (List Nat)
  | [] => some []
  | c1 :: c2 :: c3 :: c4 :: rest =>
    if c3 = 61 ∧ c4 = 61 ∧ rest = [] then
      match b64Val c1, b64Val c2 with
      | some v1, some v2 => some [v1 * 4 + v2 / 16]
      | _, _ => none
    else if c4 = 61 ∧ rest = [] then
      match b64Val c1, b64Val c2, b64Val c3 with
      | some v1, some v2, some v3 => some [v1 * 4 + v2 / 16, v2 % 16 * 16 + v3 / 4]
      | _, _, _ => none
    else
      match b64Val c1, b64Val c2, b64Val c3, b64Val c4, b64decode rest with
      | some v1, some v2, some v3, some v4, some bs =>
        some ((v1 * 4 + v2 / 16) :: (v2 % 16 * 16 + v3 / 4) :: (v3 % 4 * 64 + v4) :: bs)
      | _, _, _, _, _ => none
  | _ => none

/-! ### ASCII decimal rendering (model of Go `encoding/json`'s number output) -/

/-- Fuel-driven decimal digit expansion (most significant first). -/
def natDecimalAux : Nat → Nat → List Nat
  | 0, _ => []
  | fuel + 1, n => if n < 10 then [48 + n] else natDecimalAux fuel (n / 10) ++ [48 + n % 10]

/-- ASCII decimal representation of a natural number. -/
def natDecimal (n : Nat) : List Nat := natDecimalAux (n + 1) n

/-- Parse a list of ASCII decimal digits into a natural number. -/
def parseDecimal (l : List Nat) : Nat := l.foldl (fun a d => a * 10 + (d - 48)) 0

/-! ### The internal secret and its wire codec

`secretFormat` (part_008) carries the schema version, the ed25519 private
signing key and the user data; its JSON wire form base64-encodes the two byte
fields.  `marshalSecretFormat` produces the exact bytes that Go's
`json.Marshal` emits for the wire struct (fixed field order `v`, `k`, `s`;
base64 standard alphabet, which Go's encoder leaves unescaped), and
`parseSecretFormat` models `json.Unmarshal` on that grammar. -/

/-- `schemaVersion` from part_008. -/
def schemaVersion : Nat := 0

/-- `secretFormat` from part_008: the internal representation of the shared
secret.  Byte slices are `List Nat`. -/
structure secretFormat where
  Version : Nat
  Key : List Nat
  Data : List Nat
deriving DecidableEq

/-- ASCII bytes of the literal `{"v":` (123 34 118 34 58). -/
def jsonLitV : List Nat := [123, 34, 118, 34, 58]

/-- ASCII bytes of the literal `,"k":"` (44 34 107 34 58 34). -/
def jsonLitK : List Nat := [44, 34, 107, 34, 58, 34]

/-- ASCII bytes of the literal `","s":"` (34 44 34 115 34 58 34). -/
def jsonLitS : List Nat := [34, 44, 34, 115, 34, 58, 34]

/-- ASCII bytes of the closing literal `"}` (34 125). -/
def jsonLitEnd : List Nat := [34, 125]

/-- The bytes produced by `json.Marshal(secretFormat{...})` via its wire
struct (part_008 `wireSecretFormat` with tags `v`, `k`, `s`). -/
def marshalSecretFormat (s : secretFormat) : List Nat :=
  jsonLitV ++ natDecimal s.Version ++ jsonLitK ++ b64encode s.Key ++
    jsonLitS ++ b64encode s.Data ++ jsonLitEnd

/-- Consume an expected literal prefix. -/
def expectLit (lit bs : List Nat) : Option (List Nat) :=
  if lit.isPrefixOf bs then some (bs.drop lit.length) else none

/-- Model of `json.Unmarshal` into `secretFormat` (via part_008's
`wireSecretFormat` and `secretFormat()` conversion), on the grammar emitted by
`marshalSecretFormat`. -/
def parseSecretFormat (bs : List Nat) : Option secretFormat :=
  (expectLit jsonLitV bs).bind fun bs1 =>
    (expectLit jsonLitK (bs1.dropWhile (fun b => decide (48 ≤ b ∧ b ≤ 57)))).bind fun bs3 =>
      (expectLit jsonLitS (bs3.dropWhile (fun b => decide (b ≠ 34)))).bind fun bs5 =>
        (expectLit jsonLitEnd (bs5.dropWhile (fun b => decide (b ≠ 34)))).bind fun rest =>
          if rest ≠ [] then none
          else
            (b64decode (bs3.takeWhile (fun b => decide (b ≠ 34)))).bind fun key =>
              (b64decode (bs5.takeWhile (fun b => decide (b ≠ 34)))).bind fun data =>
                some ⟨parseDecimal (bs1.takeWhile (fun b => decide (48 ≤ b ∧ b ≤ 57))),
                  key, data⟩

/-! ### Model of Go `big.Int.ProbablyPrime`

Go's implementation runs Baillie–PSW plus extra Miller–Rabin rounds; it
returns `false` for all non-positive inputs, never errs on a prime, and has
no known composite that passes.  We model it as deterministic Miller–Rabin
with bases 2 and 3 (exact on every number this development evaluates it on;
the shamir/polynomial sources call it with rounds 80 resp. 20, which does not
change the model). -/

/-- Fuel-driven modular exponentiation (square and multiply). -/
def powModAux : Nat → Nat → Nat → Nat → Nat
  | 0, _, _, _ => 1
  | _ + 1, _, 0, n => 1 % n
  | fuel + 1, a, e + 1, n =>
    let h := powModAux fuel (a * a % n) ((e + 1) / 2) n
    if (e + 1) % 2 = 1 then h * (a % n) % n else h

/-- `a ^ e % n`, computed by binary exponentiation. -/
def powMod (a e n : Nat) : Nat := powModAux e a e n

/-- Fuel-driven extraction of the odd part: `oddPart fuel m = (d, s)` with
`m = d * 2 ^ s`, `d` odd (for `fuel ≥ m`, `m > 0`). -/
def oddPart : Nat → Nat → Nat × Nat
  | 0, m => (m, 0)
  | fuel + 1, m =>
    if m % 2 = 0 ∧ m ≠ 0 then
      let p := oddPart fuel (m / 2)
      (p.1, p.2 + 1)
    else (m, 0)

/-- The squaring phase of Miller-Rabin: does repeated squaring of `x` reach
`n - 1` within `s` steps? -/
def mrSquares : Nat → Nat → Nat → Bool
  | 0, _, _ => false
  | s + 1, x, n => if x = n - 1 then true else mrSquares s (x * x % n) n

/-- One Miller-Rabin round on odd `n ≥ 3` with base `a`. -/
def mrTest (n a : Nat) : Bool :=
  let ds := oddPart (n - 1) (n - 1)
  let x := powMod (a % n) ds.1 n
  if a % n = 0 then true
  else if x = 1 ∨ x = n - 1 then true
  else mrSquares (ds.2 - 1) (x * x % n) n

/-- Deterministic model of `big.Int.ProbablyPrime` (bases 2 and 3). -/
def millerRabin (m : Int) : Bool :=
  if m < 2 then false
  else if m % 2 = 0 then decide (m = 2)
  else mrTest m.toNat 2 && mrTest m.toNat 3

/-- `mod == nil || !mod.ProbablyPrime(20)` from the polynomial package, where
a missing (`nil`) modulus is `none`. -/
def goProbablyPrime : Option Int → Bool
  | none => false
  | some m => millerRabin m

/-! ### Model of Go `big.Int.ModInverse` (extended Euclid) -/

/-- Fuel-driven extended Euclid: for `fuel ≥ b`, `egcdAux fuel a b = (x, y)`
with `a * x + b * y = gcd a b`. -/
def egcdAux : Nat → Nat → Nat → Int × Int
  | 0, _, _ => (1, 0)
  | fuel + 1, a, b =>
    if b = 0 then (1, 0)
    else
      let q := a / b
      let r := egcdAux fuel b (a % b)
      (r.2, r.1 - (q : Int) * r.2)

/-- Model of `big.Int.ModInverse g n` for `n > 0`: `none` (Go: a `nil`
pointer, whose later use panics) when `g` and `n` are not coprime, otherwise
the inverse of `g` in `[0, n)`. -/
def modInverse (g n : Int) : Option Int :=
  if n ≤ 0 then none
  else
    let g' := g % n
    if Nat.gcd g'.toNat n.toNat = 1 then
      some ((egcdAux n.toNat g'.toNat n.toNat).1 % n)
    else none

/-! ### The `pkg/polynomial` package (part_012 and the polynomial part of
`secret_test.go`'s concatenation) -/

/-- The error values of the polynomial package, plus `panicked` for the
reachable Go runtime panics (use of the `nil` result of a failed
`ModInverse`; index out of range in `SumPolynomials`) and `sumModulus` for
`SumPolynomials`' own modulus error. -/
inductive PolyErr
  | invalidDegree
  | invalidModulus
  | inconsistentPoints
  | tooFewPoints
  | sumModulus
  | panicked
deriving DecidableEq

/-- `Point` from part_012: an `(x, y)` pair of big integers. -/
structure Point where
  X : Int
  Y : Int
deriving DecidableEq

/-- The `Polynomial` type of the Go package (renamed: the Lean name
`Polynomial` is Mathlib's): coefficients in increasing powers of x. -/
abbrev Poly : Type := List Int

/-- `uniquePointsAux seen pts` mirrors the `uniquePoints` loop of part_012:
`seen` is the map of already-seen points keyed by their `X` (the Go map keyed
by `X.String()`, which is injective); a later point whose `X` was already
seen is dropped, and sets the `inconsistent` flag when its `Y` differs from
the first occurrence's. -/
def uniquePointsAux (seen : List Point) : List Point → List Point × Bool
  | [] => ([], false)
  | pt :: rest =>
    match seen.find? (fun q => q.X == pt.X) with
    | none =>
      let r := uniquePointsAux (seen ++ [pt]) rest
      (pt :: r.1, r.2)
    | some q =>
      let r := uniquePointsAux seen rest
      (r.1, r.2 || decide (q.Y ≠ pt.Y))

/-- `uniquePoints` from part_012. -/
def uniquePoints (points : List Point) : List Point × Bool :=
  uniquePointsAux [] points

/-- `Polynomial.EvaluateMod` (Horner's method): returns the polynomial (left
unchanged by the code), the final value of the in-place-reduced argument
`x0`, and the result (`none` models the non-prime-modulus error, on which
`x0` is not yet touched). -/
def EvaluateMod (p : Poly) (x0 : Int) (m? : Option Int) : Poly × Int × Option Int :=
  if ¬ goProbablyPrime m? then (p, x0, none)
  else
    let m := m?.getD 0
    let x := x0 % m
    (p, x, some ((p : List Int).foldr (fun c acc => (acc * x + c) % m) 0))

/-- `Polynomial.SetConst`: overwrite the constant term (Go panics on an empty
polynomial; the empty case below is unreachable in the modelled paths). -/
def SetConst (a0 : Int) : Poly → Poly
  | ([] : List Int) => []
  | (_ :: rest : List Int) => a0 :: rest

/-- `Polynomial.Const`: the constant term (Go panics on an empty polynomial). -/
def Const (p : Poly) : Int := (p : List Int).getD 0 0

/-- Recursion of `Polynomial.Degree`'s trailing-zero-stripping loop. -/
def degreeAux (p : Poly) : Nat → Nat
  | 0 => 0
  | d + 1 => if (p : List Int).getD (d + 1) 0 = 0 then degreeAux p d else d + 1

/-- `Polynomial.Degree`: the highest power with a non-zero stored
coefficient. -/
def DegreeP (p : Poly) : Nat := degreeAux p ((p : List Int).length - 1)

/-- The inner accumulation loop of `SumPolynomials`: add `poly` into the
matching prefix of `P` with modular reduction (positions of `P` past the end
of `poly` are left untouched, as in the Go loop `for idx := range poly`). -/
def addInto (m : Int) : Poly → Poly → Poly
  | P, ([] : List Int) => P
  | ([] : List Int), (_ :: _ : List Int) => []
  | (a :: P : List Int), (b :: poly : List Int) => ((a + b) % m :: addInto m P poly : List Int)

/-- `polynomial.SumPolynomials`: sums polynomials coefficient-wise mod `m`
into a result sized by the largest *stripped* degree.  When some summand's
stored length exceeds that size the Go loop indexes out of range and panics
(`panicked`). -/
def SumPolynomials (m? : Option Int) (polynomials : List Poly) : Except PolyErr Poly :=
  if ¬ goProbablyPrime m? then .error .sumModulus
  else
    let m := m?.getD 0
    let degree := polynomials.foldl (fun d poly => max d (DegreeP poly)) 0
    if polynomials.any (fun poly => degree + 1 < (poly : List Int).length) then .error .panicked
    else .ok (polynomials.foldl (fun P poly => addInto m P poly) (List.replicate (degree + 1) 0 : List Int))

/-- One iteration of the inner product loop of `InterpolateConst` (index
`m`, skipping `m = j`): multiply by `x_m · (x_m − x_j)⁻¹` and reduce mod `p`;
`none` models the Go panic on multiplying with a `nil` failed `ModInverse`. -/
def icProdStep (p : Int) (pts : List Point) (j : Nat) : Option Int → Nat → Option Int
  | none, _ => none
  | some prod, m =>
    if m = j then some prod
    else
      match modInverse ((pts.getD m ⟨0, 0⟩).X - (pts.getD j ⟨0, 0⟩).X) p with
      | none => none
      | some inv => some (prod * ((pts.getD m ⟨0, 0⟩).X * inv % p) % p)

/-- The inner product loop of `InterpolateConst` for index `j`:
`∏_{m ≠ j} x_m · (x_m − x_j)⁻¹`, reduced mod `p` at each step. -/
def icProd (p : Int) (pts : List Point) (j : Nat) : Option Int :=
  (List.range pts.length).foldl (icProdStep p pts j) (some 1)

/-- One iteration of the outer accumulation loop of `InterpolateConst`:
add `y_j` times the inner product and reduce mod `p`. -/
def icSumStep (p : Int) (pts : List Point) : Option Int → Nat → Option Int
  | none, _ => none
  | some L0, j =>
    match icProd p pts j with
    | none => none
    | some prod => some ((L0 + (pts.getD j ⟨0, 0⟩).Y * prod) % p)

/-- The outer accumulation loop of `InterpolateConst`:
`L0 = Σ_j y_j · ∏_{m ≠ j} x_m / (x_m − x_j) (mod p)`. -/
def icSum (p : Int) (pts : List Point) : Option Int :=
  (List.range pts.length).foldl (icSumStep p pts) (some 0)

/-- `polynomial.InterpolateConst` from part_012. -/
def InterpolateConst (degree : Nat) (mod? : Option Int) (points : List Point) :
    Except PolyErr Int :=
  if degree < 1 then .error .invalidDegree
  else if ¬ goProbablyPrime mod? then .error .invalidModulus
  else
    let p := mod?.getD 0
    let u := uniquePoints points
    if u.2 then .error .inconsistentPoints
    else if u.1.length < degree + 1 then .error .tooFewPoints
    else
      match icSum p (u.1.take (degree + 1)) with
      | none => .error .panicked
      | some L0 => .ok L0

/-! ### `combinations` (part_012): lexicographic enumeration of r-subsets

The Go loop is a while-loop; it is embedded with a fuel parameter that
strictly bounds the number of iterations (`(n+1)^r` exceeds the number of
strictly increasing index tuples, and each step is proved to increase the
tuple lexicographically). -/

/-- One iteration of the `combinations` loop: find the last index `i` whose
entry is not at its maximum `i + n - r`, increment it and reset the tail to
consecutive successors; `none` when every index is at its maximum. -/
def combStep (n r : Int) (idxs : List Int) : Option (List Int) :=
  match (List.range idxs.length).reverse.find?
      (fun i => decide (idxs.getD i 0 ≠ (i : Int) + n - r)) with
  | none => none
  | some i =>
    some (idxs.take i ++ (List.range (idxs.length - i)).map (fun t => idxs.getD i 0 + 1 + (t : Int)))

/-- Fuel-driven unfolding of the `combinations` loop, collecting each index
tuple. -/
def combRun (n r : Int) : Nat → List Int → List (List Int)
  | 0, idxs => [idxs]
  | fuel + 1, idxs =>
    idxs ::
      (match combStep n r idxs with
       | none => []
       | some next => combRun n r fuel next)

/-- `combinations` from part_012: the in-order `r`-length combinations of
`range n`, matching Python's `itertools.combinations(range(n), r)`. -/
def combinations (n r : Int) : List (List Int) :=
  if n < 0 ∨ r < 0 ∨ r > n then []
  else if r = 0 then [[]]
  else combRun n r ((n.toNat + 1) ^ r.toNat) ((List.range r.toNat).map Int.ofNat)

/-- The scale factor of one Lagrange summand in `Interpolate`:
`y_j · (∏_{m ≠ j} (x_j − x_m))⁻¹ mod p` (`none` models the panic on a failed
`ModInverse`). -/
def lagrangeScale (p xj yj : Int) (others : List Int) : Option Int :=
  let prod := others.foldl (fun pr xm => pr * (xj - xm) % p) 1
  match modInverse prod p with
  | none => none
  | some inv => some (yj * inv % p)

/-- One addend of a coefficient of the expanded product: the product over a
combination's indices into `Xms`, mod `p` at each step. -/
def combPart (p : Int) (Xms : List Int) (set : List Int) : Int :=
  set.foldl (fun part idx => part * Xms.getD idx.toNat 0 % p) 1

/-- The coefficient-building loop of `Interpolate`: sum `combPart` over all
`r`-combinations of `Xms`'s indices, mod `p` at each step. -/
def lagrangeCoeff (p : Int) (Xms : List Int) (r : Nat) : Int :=
  (combinations (Int.ofNat Xms.length) (Int.ofNat r)).foldl
    (fun coeff set => (coeff + combPart p Xms set) % p) 0

/-- One full Lagrange summand polynomial of `Interpolate` (index `j`). -/
def lagrangePoly (p : Int) (sel : List Point) (j : Nat) : Option Poly :=
  let xj := (sel.getD j ⟨0, 0⟩).X
  let yj := (sel.getD j ⟨0, 0⟩).Y
  let others := ((List.range sel.length).filter (fun m => m ≠ j)).map
    (fun m => (sel.getD m ⟨0, 0⟩).X)
  match lagrangeScale p xj yj others with
  | none => none
  | some scale =>
    let Xms := others.map Int.neg
    some (((List.range sel.length).map
      (fun m => lagrangeCoeff p Xms (sel.length - 1 - m) * scale % p) : List Int))

/-- Collect all Lagrange summand polynomials (the outer `j` loop of
`Interpolate`). -/
def lagrangePolys (p : Int) (sel : List Point) : List Nat → Option (List Poly)
  | [] => some []
  | j :: rest =>
    match lagrangePoly p sel j with
    | none => none
    | some poly =>
      match lagrangePolys p sel rest with
      | none => none
      | some polys => some (poly :: polys)

/-- `polynomial.Interpolate` from part_012: full polynomial reconstruction. -/
def Interpolate (degree : Nat) (mod? : Option Int) (points : List Point) :
    Except PolyErr Poly :=
  if degree < 1 then .error .invalidDegree
  else if ¬ goProbablyPrime mod? then .error .invalidModulus
  else
    let p := mod?.getD 0
    let u := uniquePoints points
    if u.2 then .error .inconsistentPoints
    else if u.1.length < degree + 1 then .error .tooFewPoints
    else
      let sel := u.1.take (degree + 1)
      match lagrangePolys p sel (List.range sel.length) with
      | none => .error .panicked
      | some lps => SumPolynomials mod? lps

/-! ### The `pkg/shamir` package, newer variant (part_007 first file, with
ed25519 signatures; `share.go`; `part_008`) -/

/-- All error values crossing the shamir API, with `interp` wrapping the
polynomial package's errors (Go wraps them with `errors.Wrap`, preserving the
cause). -/
inductive GoErr
  | notPrime
  | primeTooSmall
  | splitTooFewShares
  | splitNoShares
  | combineTooFewShares
  | combineMismatchShares
  | combineBadSignature
  | combineWrongSize
  | unknownSecretSchema
  | signMismatch
  | evalModError
  | unmarshalError
  | badPublicKey
  | b64Error
  | badKeyPrefix
  | interp (e : PolyErr)
deriving DecidableEq

/-- `DefaultBlockSize` from part_007. -/
def DefaultBlockSize : Nat := 16

/-- `maxBlockValue size = 2^(8·size) − 1` from part_007. -/
def maxBlockValue (size : Nat) : Int := 2 ^ (8 * size) - 1

/-- Public half of a Go ed25519 private key (`priv.Public() = priv[32:]`). -/
def ed25519Public (priv : List Nat) : List Nat := priv.drop 32

/-- `ShareMeta` from `share.go`. -/
structure ShareMeta where
  Size : Nat
  BlockSize : Nat
  P : Int
  K : Nat
  PublicKey : List Nat
deriving DecidableEq

/-- `SharePayload` from `share.go`. -/
structure SharePayload where
  Meta : ShareMeta
  X : Int
  Ys : List Int
deriving DecidableEq

/-- Idealized ed25519 signature (model of the external
`golang.org/x/crypto/ed25519`): a signature determines the signer's public
key and the signed payload, `Verify` succeeds exactly on the honest
signature.  This models deterministic ed25519 as a perfectly unforgeable,
canonical signature scheme; the repo signs the canonical JSON encoding of the
payload, which is injective on payloads, so carrying the payload itself is
faithful. -/
structure ShareSignature where
  signerPub : List Nat
  signed : SharePayload
deriving DecidableEq

/-- `SharePayload.Sign` from `share.go`: errors when the embedded public key
differs from the signing key's public half, otherwise signs the canonical
payload encoding. -/
def SharePayload.Sign (sp : SharePayload) (key : List Nat) : Except GoErr ShareSignature :=
  if sp.Meta.PublicKey ≠ ed25519Public key then .error .signMismatch
  else .ok ⟨ed25519Public key, sp⟩

/-- `SharePayload.Verify` from `share.go`: errors when the embedded public
key has the wrong length, otherwise reports whether the signature verifies. -/
def SharePayload.Verify (sp : SharePayload) (sig : ShareSignature) : Except GoErr Bool :=
  if sp.Meta.PublicKey.length ≠ 32 then .error .badPublicKey
  else .ok (decide (sig.signerPub = sp.Meta.PublicKey ∧ sig.signed = sp))

/-- `Share` from `share.go`: signed payload. -/
structure Share where
  Safe : SharePayload
  Signature : ShareSignature
deriving DecidableEq

/-- A placeholder share (used only as the default of list lookups whose
bounds are established separately). -/
def dummyShare : Share :=
  ⟨⟨⟨0, 0, 0, 0, []⟩, 0, []⟩, ⟨[], ⟨⟨0, 0, 0, 0, []⟩, 0, []⟩⟩⟩

/-- ASCII bytes of the `signaturePrefix` literal `ed25519-`. -/
def sigPrefix : List Nat := [101, 100, 50, 53, 53, 49, 57, 45]

/-- `keyIdent` from `share.go`: `"ed25519-" ++ base64(key)`. -/
def keyIdent (key : List Nat) : List Nat := sigPrefix ++ b64encode key

/-- `ShareGrouping` from `share.go`. -/
structure ShareGrouping where
  GroupIdx : Int
  Bad : Bool
deriving DecidableEq

/-- The verification step inside `GroupShares`: `good, err := Verify(...)`,
with any error forcing `good = false`. -/
def shareGood (share : Share) : Bool :=
  match share.Safe.Verify share.Signature with
  | .error _ => false
  | .ok g => g

/-- The loop of `GroupShares`: `counter` is the running `groupIdx`,
`mapping` the `groupMapping` map (insertion-ordered association list). -/
def groupSharesAux (counter : Int) (mapping : List (List Nat × Int)) :
    List Share → List ShareGrouping
  | [] => []
  | share :: rest =>
    let ident := keyIdent share.Safe.Meta.PublicKey
    match mapping.find? (fun kv => kv.1 == ident) with
    | some kv => ⟨kv.2, !shareGood share⟩ :: groupSharesAux counter mapping rest
    | none =>
      ⟨counter + 1, !shareGood share⟩ ::
        groupSharesAux (counter + 1) (mapping ++ [(ident, counter + 1)]) rest

/-- `GroupShares` from `share.go`. -/
def GroupShares (shares : List Share) : List ShareGrouping :=
  groupSharesAux 0 [] shares

/-- The checking loop of the newer `combineSharePoints` over the indexed
shares; `m` is the `shareMap` (insertion-ordered association list keyed by
the share's `X`, valued by its first index). -/
def cspLoop (shares : List Share) (groupings : List ShareGrouping) (s0 : Share)
    (numBlocks : Nat) : List (Nat × Share) → List (Int × Nat) →
    Except GoErr (List (Int × Nat))
  | [], m => .ok m
  | (idx, share) :: rest, m =>
    if share.Safe.Meta ≠ s0.Safe.Meta then .error .combineMismatchShares
    else if share.Safe.Ys.length ≠ numBlocks then .error .combineMismatchShares
    else if (groupings.getD idx ⟨0, false⟩).GroupIdx ≠ (groupings.getD 0 ⟨0, false⟩).GroupIdx then
      .error .combineMismatchShares
    else if (groupings.getD idx ⟨0, false⟩).Bad then .error .combineBadSignature
    else
      match m.find? (fun kv => kv.1 == share.Safe.X) with
      | none => cspLoop shares groupings s0 numBlocks rest (m ++ [(share.Safe.X, idx)])
      | some kv =>
        if share ≠ shares.getD kv.2 dummyShare then .error .combineMismatchShares
        else cspLoop shares groupings s0 numBlocks rest m

/-- Build the per-chunk point sets from the truncated usable shares. -/
def chunkedPointsOf (numBlocks : Nat) (sel : List Share) : List (List Point) :=
  (List.range numBlocks).map (fun i => sel.map (fun sh => ⟨sh.Safe.X, sh.Safe.Ys.getD i 0⟩))

/-- The newer `combineSharePoints` (part_007 first file).  The Go map
iteration over `shareMap` is modelled in key-insertion order (one admissible
resolution of Go's unspecified map order; every property proved about it
below is order-insensitive). -/
def combineSharePoints (shares : List Share) :
    Except GoErr (List (List Point) × ShareMeta) :=
  if shares.length < 1 then .error .combineTooFewShares
  else
    let groupings := GroupShares shares
    let s0 := shares.getD 0 dummyShare
    let numBlocks := s0.Safe.Ys.length
    match cspLoop shares groupings s0 numBlocks shares.enum [] with
    | .error e => .error e
    | .ok m =>
      let usable := m.map (fun kv => shares.getD kv.2 dummyShare)
      let meta := (usable.getD 0 dummyShare).Safe.Meta
      if usable.length < meta.K then .error .combineTooFewShares
      else .ok (chunkedPointsOf numBlocks (usable.take meta.K), meta)

/-- The per-chunk `InterpolateConst` loop of the newer `Combine`. -/
def interpChunks (meta : ShareMeta) : List (List Point) → Except GoErr (List Int)
  | [] => .ok []
  | pts :: rest =>
    match InterpolateConst (meta.K - 1) (some meta.P) pts with
    | .error e => .error (.interp e)
    | .ok c =>
      match interpChunks meta rest with
      | .error e => .error e
      | .ok cs => .ok (c :: cs)

/-- `combineChunks` (part_007 first file): reassemble the internal secret
bytes, check the size, unmarshal, check the schema version. -/
def combineChunks (meta : ShareMeta) (chunks : List Int) : Except GoErr secretFormat :=
  let internalSecretBytes := rebuildChunks meta.Size meta.BlockSize chunks
  if internalSecretBytes.length ≠ meta.Size then .error .combineWrongSize
  else
    match parseSecretFormat internalSecretBytes with
    | none => .error .unmarshalError
    | some s =>
      if s.Version ≠ schemaVersion then .error .unknownSecretSchema
      else .ok s

/-- The newer `shamir.Combine`, in Go's two-value return shape
`(secret bytes, error)`: every error path returns `nil` data. -/
def Combine (shares : List Share) : List Nat × Option GoErr :=
  match combineSharePoints shares with
  | .error e => ([], some e)
  | .ok r =>
    match interpChunks r.2 r.1 with
    | .error e => ([], some e)
    | .ok chunks =>
      match combineChunks r.2 chunks with
      | .error e => ([], some e)
      | .ok internalSecret => (internalSecret.Data, none)

/-- The per-block evaluation loop of `constructShare`, threading the
in-place-reduced `x` through the successive `EvaluateMod` calls (the Go
code passes the same `*big.Int` each time). -/
def evalPolys : List Poly → Int → Int → Option (Int × List Int)
  | [], x, _ => some (x, [])
  | poly :: rest, x, P =>
    match EvaluateMod poly x (some P) with
    | (_, x', some y) =>
      match evalPolys rest x' P with
      | none => none
      | some r => some (r.1, y :: r.2)
    | (_, _, none) => none

/-- The newer `constructShare`, with the share's random `x` supplied by the
tape (`rand.Int(rand.Reader, meta.P)` guarantees `0 ≤ x < meta.P`, which
appears as a hypothesis of the theorems). -/
def constructShare (meta : ShareMeta) (polys : List Poly) (key : List Nat) (x0 : Int) :
    Except GoErr Share :=
  match evalPolys polys x0 meta.P with
  | none => .error .evalModError
  | some r =>
    let payload : SharePayload := ⟨meta, r.1, r.2⟩
    match payload.Sign key with
    | .error e => .error e
    | .ok sig => .ok ⟨payload, sig⟩

/-- The share-construction loop of `Split`/`Extend` over the tape of drawn
`x` values. -/
def buildShares (meta : ShareMeta) (polys : List Poly) (key : List Nat) :
    List Int → Except GoErr (List Share)
  | [] => .ok []
  | x :: xs =>
    match constructShare meta polys key x with
    | .error e => .error e
    | .ok sh =>
      match buildShares meta polys key xs with
      | .error e => .error e
      | .ok shs => .ok (sh :: shs)

/-- The random draws consumed by one `Split` call: the generated prime, the
generated ed25519 private key (64 bytes, public half `priv[32:]`), the
accepted coefficient draws of each per-block `RandomPolynomial` (the
rejection loop resamples zero draws, so the sampler guarantees each accepted
draw lies in `(0, prime)`), and the per-share `x` draws. -/
structure SplitTape where
  prime : Int
  priv : List Nat
  coeffs : List (List Int)
  xs : List Int

/-- `polynomial.RandomPolynomial` under the tape model: the accepted draws
for the `degree + 1` coefficients. -/
def RandomPolynomial (degree : Nat) (draws : List Int) : Poly :=
  (draws.take (degree + 1) : List Int)

/-- The newer `shamir.Split` (part_007 first file). -/
def Split (k n : Nat) (secret : List Nat) (tape : SplitTape) : Except GoErr (List Share) :=
  if k > n then .error .splitTooFewShares
  else if k < 1 then .error .splitNoShares
  else
    let blockSize := DefaultBlockSize
    let prime := tape.prime
    if ¬ millerRabin prime then .error .notPrime
    else if prime ≤ maxBlockValue blockSize then .error .primeTooSmall
    else
      let publicKey := ed25519Public tape.priv
      let secretBytes := marshalSecretFormat ⟨schemaVersion, tape.priv, secret⟩
      let secretPolys := ((blockBytes secretBytes blockSize).zip tape.coeffs).map
        (fun bc => SetConst (Int.ofNat (bytesToNat bc.1)) (RandomPolynomial (k - 1) bc.2))
      let meta : ShareMeta := ⟨secretBytes.length, blockSize, prime, k, publicKey⟩
      buildShares meta secretPolys tape.priv (tape.xs.take n)

/-- The per-chunk `Interpolate` loop of `Extend`. -/
def interpPolyChunks (meta : ShareMeta) : List (List Point) → Except GoErr (List Poly)
  | [] => .ok []
  | pts :: rest =>
    match Interpolate (meta.K - 1) (some meta.P) pts with
    | .error e => .error (.interp e)
    | .ok poly =>
      match interpPolyChunks meta rest with
      | .error e => .error e
      | .ok polys => .ok (poly :: polys)

/-- The newer `shamir.Extend` (part_007 first file), with the fresh `x` draws
supplied by `newXs`. -/
def Extend (n : Nat) (shares : List Share) (newXs : List Int) : Except GoErr (List Share) :=
  match combineSharePoints shares with
  | .error e => .error e
  | .ok r =>
    match interpPolyChunks r.2 r.1 with
    | .error e => .error e
    | .ok polys =>
      let chunks := polys.map Const
      match combineChunks r.2 chunks with
      | .error e => .error e
      | .ok internalSecret => buildShares r.2 polys internalSecret.Key (newXs.take n)

/-! ### The older `pkg/shamir` variant (part_007 second file, no signatures)

Only the `ShareMeta`/`Share` structures and the `Combine` path are needed
(claim C9).  The `Equal` methods they invoke live in a file not present under
`src/`; they are modelled as structural equality, which the spec's data model
implies and which the claims below never exercise on distinct-but-`Equal`
values. -/

/-- Old-variant `ShareMeta` (fields `S`, `BS`, `P`, `K`). -/
structure ShareMetaO where
  S : Nat
  BS : Nat
  P : Int
  K : Nat
deriving DecidableEq

/-- Old-variant `Share`. -/
structure ShareO where
  Meta : ShareMetaO
  X : Int
  Ys : List Int
deriving DecidableEq

/-- Placeholder old-variant share. -/
def dummyShareO : ShareO := ⟨⟨0, 0, 0, 0⟩, 0, []⟩

/-- The checking loop of the older `combineSharePoints`. -/
def cspLoopO (shares : List ShareO) (s0 : ShareO) (numBlocks : Nat) :
    List (Nat × ShareO) → List (Int × Nat) → Except GoErr (List (Int × Nat))
  | [], m => .ok m
  | (idx, share) :: rest, m =>
    if share.Meta ≠ s0.Meta then .error .combineMismatchShares
    else if share.Ys.length ≠ numBlocks then .error .combineMismatchShares
    else
      match m.find? (fun kv => kv.1 == share.X) with
      | none => cspLoopO shares s0 numBlocks rest (m ++ [(share.X, idx)])
      | some kv =>
        if share ≠ shares.getD kv.2 dummyShareO then .error .combineMismatchShares
        else cspLoopO shares s0 numBlocks rest m

/-- Old-variant per-chunk point sets. -/
def chunkedPointsOfO (numBlocks : Nat) (sel : List ShareO) : List (List Point) :=
  (List.range numBlocks).map (fun i => sel.map (fun sh => ⟨sh.X, sh.Ys.getD i 0⟩))

/-- The older `combineSharePoints` (part_007 second file). -/
def combineSharePointsO (shares : List ShareO) :
    Except GoErr (List (List Point) × ShareMetaO) :=
  if shares.length < 1 then .error .combineTooFewShares
  else
    let s0 := shares.getD 0 dummyShareO
    let numBlocks := s0.Ys.length
    match cspLoopO shares s0 numBlocks shares.enum [] with
    | .error e => .error e
    | .ok m =>
      let usable := m.map (fun kv => shares.getD kv.2 dummyShareO)
      let meta := (usable.getD 0 dummyShareO).Meta
      if usable.length < meta.K then .error .combineTooFewShares
      else .ok (chunkedPointsOfO numBlocks (usable.take meta.K), meta)

/-- Old-variant per-chunk `InterpolateConst` loop. -/
def interpChunksO (meta : ShareMetaO) : List (List Point) → Except GoErr (List Int)
  | [] => .ok []
  | pts :: rest =>
    match InterpolateConst (meta.K - 1) (some meta.P) pts with
    | .error e => .error (.interp e)
    | .ok c =>
      match interpChunksO meta rest with
      | .error e => .error e
      | .ok cs => .ok (c :: cs)

/-- The older `shamir.Combine` (part_007 second file), in Go's two-value
shape.  Note its final path: on a size mismatch it sets
`err = ErrCombineWrongSize` but still executes `return secret, err`,
returning the reconstructed bytes alongside the error. -/
def CombineOld (shares : List ShareO) : List Nat × Option GoErr :=
  match combineSharePointsO shares with
  | .error e => ([], some e)
  | .ok r =>
    match interpChunksO r.2 r.1 with
    | .error e => ([], some e)
    | .ok chunks =>
      let secret := rebuildChunks r.2.S r.2.BS chunks
      if secret.length ≠ r.2.S then (secret, some .combineWrongSize)
      else (secret, none)

/-! ### Wire codecs: `SharePayload` (share.go) and `crypto.Packet`
(packet.go)

The JSON text layer for these two types is Go's `encoding/json` over flat
wire structs with string fields; for such shapes `Unmarshal ∘ Marshal` is the
identity on the wire struct, so the codecs are modelled at the wire-struct
boundary (base64 strings appear as the ASCII byte lists produced by
`b64encode`).  Every lossy step — `big.Int.Bytes` dropping sign and leading
zeros, the `ed25519-` prefix handling, the public-key length check — is repo
code and is modelled exactly. -/

/-- `encodeBigInt` from part_009: base64 of `x.Bytes()` (absolute value!). -/
def encodeBigInt (x : Int) : List Nat := b64encode (natBytes x.natAbs)

/-- `decodeBigInt` from part_009. -/
def decodeBigInt (s : List Nat) : Except GoErr Int :=
  match b64decode s with
  | none => .error .b64Error
  | some b => .ok (Int.ofNat (bytesToNat b))

/-- `wireSharePayload` from `share.go` (nested meta flattened; string fields
hold encoded ASCII bytes). -/
structure wireSharePayload where
  MetaS : Nat
  MetaBS : Nat
  MetaP : List Nat
  MetaK : Nat
  MetaPK : List Nat
  X : List Nat
  Ys : List (List Nat)
deriving DecidableEq

/-- `SharePayload.wireSharePayload` from `share.go` (the marshalling
direction of `MarshalJSON`). -/
def SharePayload.wire (s : SharePayload) : wireSharePayload :=
  ⟨s.Meta.Size, s.Meta.BlockSize, encodeBigInt s.Meta.P, s.Meta.K,
    keyIdent s.Meta.PublicKey, encodeBigInt s.X, s.Ys.map encodeBigInt⟩

/-- Decode the list of `ys` strings. -/
def decodeYs : List (List Nat) → Except GoErr (List Int)
  | [] => .ok []
  | y :: rest =>
    match decodeBigInt y with
    | .error e => .error e
    | .ok v =>
      match decodeYs rest with
      | .error e => .error e
      | .ok vs => .ok (v :: vs)

/-- `wireSharePayload.sharePayload` from `share.go` (the unmarshalling
direction of `UnmarshalJSON`): checks the `ed25519-` scheme prefix and the
decoded public key's length. -/
def wireSharePayload.sharePayload (ws : wireSharePayload) : Except GoErr SharePayload :=
  match decodeBigInt ws.MetaP with
  | .error e => .error e
  | .ok P =>
    if ¬ sigPrefix.isPrefixOf ws.MetaPK then .error .badKeyPrefix
    else
      match b64decode (ws.MetaPK.drop sigPrefix.length) with
      | none => .error .b64Error
      | some pk =>
        if pk.length ≠ 32 then .error .badPublicKey
        else
          match decodeBigInt ws.X with
          | .error e => .error e
          | .ok X =>
            match decodeYs ws.Ys with
            | .error e => .error e
            | .ok Ys => .ok ⟨⟨ws.MetaS, ws.MetaBS, P, ws.MetaK, pk⟩, X, Ys⟩

/-- `ExtraData` from `packet.go`: the authenticated string-to-string headers
(an association list models the map; the wire conversions copy it verbatim). -/
structure ExtraData where
  Headers : List (List Nat × List Nat)
deriving DecidableEq

/-- `Packet` from `packet.go`. -/
structure Packet where
  Nonce : List Nat
  Ciphertext : List Nat
  Extra : ExtraData
deriving DecidableEq

/-- `wirePacket` from `packet.go`. -/
structure wirePacket where
  Nonce : List Nat
  Ciphertext : List Nat
  Extra : ExtraData
deriving DecidableEq

/-- `Packet.wirePacket` (the marshalling direction of `MarshalJSON`). -/
def Packet.wire (p : Packet) : wirePacket :=
  ⟨b64encode p.Nonce, b64encode p.Ciphertext, p.Extra⟩

/-- `wirePacket.packet` (the unmarshalling direction of `UnmarshalJSON`). -/
def wirePacket.packet (wp : wirePacket) : Except GoErr Packet :=
  match b64decode wp.Nonce with
  | none => .error .b64Error
  | some nonce =>
    match b64decode wp.Ciphertext with
    | none => .error .b64Error
    | some ct => .ok ⟨nonce, ct, wp.Extra⟩

/-! ### Spec-level notions used in theorem statements -/

/-- Plain (unreduced) Horner evaluation of a coefficient list at a point:
the mathematical polynomial the specification speaks about. -/
def hornerEval (f : List Int) (x : Int) : Int :=
  f.foldr (fun c acc => acc * x + c) 0

/-- The specification's consistency of a point set: no two points share an
`x`-value with different `y`-values. -/
def PointsConsistent (pts : List Point) : Prop :=
  ∀ a ∈ pts, ∀ b ∈ pts, a.X = b.X → a.Y = b.Y

instance (pts : List Point) : Decidable (PointsConsistent pts) := by
  unfold PointsConsistent; infer_instance

/-- The internal secret bytes a `Split` call encodes (version, private key,
secret data). -/
def splitSecretBytes (secret : List Nat) (tape : SplitTape) : List Nat :=
  marshalSecretFormat ⟨schemaVersion, tape.priv, secret⟩

/-- The metadata of every share produced by a successful `Split`. -/
def splitMeta (k : Nat) (secret : List Nat) (tape : SplitTape) : ShareMeta :=
  ⟨(splitSecretBytes secret tape).length, DefaultBlockSize, tape.prime, k,
    ed25519Public tape.priv⟩

/-- The per-block secret polynomials a `Split` call builds. -/
def splitPolys (k : Nat) (secret : List Nat) (tape : SplitTape) : List Poly :=
  ((blockBytes (splitSecretBytes secret tape) DefaultBlockSize).zip tape.coeffs).map
    (fun bc => SetConst (Int.ofNat (bytesToNat bc.1)) (RandomPolynomial (k - 1) bc.2))

/-- The share a successful `constructShare` call returns: `x` reduced mod
`meta.P`, one evaluation per block polynomial, and the honest signature. -/
def shareOf (meta : ShareMeta) (polys : List Poly) (key : List Nat) (x : Int) : Share :=
  ⟨⟨meta, x % meta.P, polys.map (fun f => hornerEval f (x % meta.P) % meta.P)⟩,
    ⟨ed25519Public key,
      ⟨meta, x % meta.P, polys.map (fun f => hornerEval f (x % meta.P) % meta.P)⟩⟩⟩

/-- The concrete 129-bit prime used by the concrete witnesses below
(`rand.Prime(rand.Reader, 129)` may return it): `277 · 2^120 + 1`. -/
def P0 : Int := 368196154832421696794354555697655447553

/-- Concrete 64-byte private key for the concrete instances below. -/
def priv0 : List Nat := List.range 64

/-- Concrete secret bytes (`hi`). -/
def secret0 : List Nat := [104, 105]

/-- Concrete accepted coefficient draws: one list per block of the internal
secret encoding (8 blocks for `secret0`). -/
def coeffs0 : List (List Int) := List.replicate 8 [3, 5]

/-- Concrete split tape over the prime `P0`. -/
def tape0 : SplitTape := ⟨P0, priv0, coeffs0, [1, 2]⟩

/-- The two shares `Split 2 2 secret0 tape0` produces. -/
def shares0 : List Share :=
  (tape0.xs.take 2).map
    (shareOf (splitMeta 2 secret0 tape0) (splitPolys 2 secret0 tape0) tape0.priv)

/-- A tape identical to `tape0` but with colliding `x` draws. -/
def tape1 : SplitTape := ⟨P0, priv0, coeffs0, [1, 1]⟩

/-- The two (colliding) shares `Split 2 2 secret0 tape1` produces. -/
def shares1 : List Share :=
  (tape1.xs.take 2).map
    (shareOf (splitMeta 2 secret0 tape1) (splitPolys 2 secret0 tape1) tape1.priv)

/-- The first share of `shares0` with its signature replaced by one under a
different key: its verification fails. -/
def badShare0 : Share :=
  ⟨(shares0.getD 0 dummyShare).Safe, ⟨[9], (shares0.getD 0 dummyShare).Safe⟩⟩

/-- Old-variant shares whose (hostile) metadata declares `Size = 16` while
the single reconstructed block renders to one byte. -/
def sharesO0 : List ShareO :=
  [⟨⟨16, 16, 7, 2⟩, 1, [5]⟩, ⟨⟨16, 16, 7, 2⟩, 2, [5]⟩]

/-- A share payload with a negative `x`: `big.Int.Bytes` drops the sign. -/
def spNeg : SharePayload := ⟨⟨1, 16, 7, 1, List.range 32⟩, -1, []⟩

/-! ## Proofs -/

/-! ### Modular exponentiation and the primality certificate for `P0` -/

theorem millerRabin_two_le {m : Int} (h : millerRabin m = true) : 2 ≤ m := by
  by_contra hlt
  rw [millerRabin, if_pos (by omega : m < 2)] at h
  exact Bool.noConfusion h

theorem powModAux_eq {n : Nat} (hn : 2 ≤ n) :
    ∀ fuel e a, e ≤ fuel → powModAux fuel a e n = a ^ e % n := by
  intro fuel
  induction fuel with
  | zero =>
    intro e a he
    interval_cases e
    simp [powModAux, Nat.mod_eq_of_lt hn]
  | succ fuel ih =>
    intro e a he
    match e with
    | 0 => simp [powModAux, Nat.mod_eq_of_lt hn]
    | e + 1 =>
      have hhalf : (e + 1) / 2 ≤ fuel := by
        have h1 := Nat.div_add_mod (e + 1) 2
        have h2 : (e + 1) % 2 < 2 := Nat.mod_lt _ (by omega)
        omega
      have hrec := ih ((e + 1) / 2) (a * a % n) hhalf
      have hsq : (a * a % n) ^ ((e + 1) / 2) % n = a ^ (2 * ((e + 1) / 2)) % n := by
        rw [← Nat.pow_mod]
        congr 1
        rw [pow_mul, pow_two]
      simp only [powModAux, hrec, hsq]
      rcases Nat.even_or_odd (e + 1) with hpar | hpar
      · have h2 : (e + 1) % 2 = 0 := Nat.even_iff.mp hpar
        have hdd : 2 * ((e + 1) / 2) = e + 1 := by omega
        rw [if_neg (by omega), hdd]
      · have h2 : (e + 1) % 2 = 1 := Nat.odd_iff.mp hpar
        have hdd : 2 * ((e + 1) / 2) + 1 = e + 1 := by omega
        rw [if_pos h2]
        conv_rhs => rw [← hdd, pow_succ, Nat.mul_mod]

theorem powMod_eq {n : Nat} (hn : 2 ≤ n) (a e : Nat) : powMod a e n = a ^ e % n :=
  powModAux_eq hn e e a le_rfl

/-- Transfer a concrete `powMod` evaluation into `ZMod`. -/
theorem powMod_cast {n : Nat} (hn : 2 ≤ n) (a e : Nat) :
    ((powMod a e n : Nat) : ZMod n) = (a : ZMod n) ^ e := by
  rw [powMod_eq hn, ZMod.natCast_mod, Nat.cast_pow]

/-- A `powMod` value below the modulus that casts to `1` must be `1`. -/
theorem eq_one_of_cast_one {n x : Nat} (hn : 2 ≤ n) (hx : x < n)
    (h : ((x : Nat) : ZMod n) = 1) : x = 1 := by
  have h' : ((x : Nat) : ZMod n) = ((1 : Nat) : ZMod n) := by simpa using h
  have := (ZMod.natCast_eq_natCast_iff x 1 n).mp h'
  have hmod : x % n = 1 % n := this
  rwa [Nat.mod_eq_of_lt hx, Nat.mod_eq_of_lt (by omega)] at hmod

theorem P0_toNat : P0.toNat = 368196154832421696794354555697655447553 := rfl

theorem P0_prime : Nat.Prime P0.toNat := by
  rw [P0_toNat]
  set p : Nat := 368196154832421696794354555697655447553 with hp
  have hp1 : p - 1 = 277 * 2 ^ 120 := by rw [hp]; decide
  have hlt : 2 ≤ p := by rw [hp]; norm_num
  apply lucas_primality p (3 : ZMod p)
  · have h1 : powMod 3 (p - 1) p = 1 := by rw [hp1, hp]; decide
    have hc := powMod_cast hlt 3 (p - 1)
    rw [h1] at hc
    simpa using hc.symm
  · intro q hq hdvd
    rw [hp1] at hdvd
    have hq' : q = 277 ∨ q = 2 := by
      rcases (Nat.Prime.dvd_mul hq).mp hdvd with h | h
      · exact Or.inl ((Nat.prime_dvd_prime_iff_eq hq (by norm_num)).mp h)
      · exact Or.inr ((Nat.prime_dvd_prime_iff_eq hq (by norm_num)).mp
          (hq.dvd_of_dvd_pow h))
    intro hcon
    have h3 : ((3 : ℕ) : ZMod p) = (3 : ZMod p) := by push_cast; ring
    rcases hq' with hq' | hq'
    · have hdiv : (p - 1) / q = 2 ^ 120 := by rw [hq', hp1]; decide
      have hval : powMod 3 ((p - 1) / q) p = 345663564459560866608562784371693255931 := by
        rw [hdiv, hp]; decide
      have hcast := powMod_cast hlt 3 ((p - 1) / q)
      rw [hval, h3, hcon] at hcast
      have := eq_one_of_cast_one hlt (by rw [hp]; norm_num) hcast
      norm_num at this
    · have hdiv : (p - 1) / q = 277 * 2 ^ 119 := by rw [hq', hp1]; decide
      have hval : powMod 3 ((p - 1) / q) p =
          368196154832421696794354555697655447552 := by
        rw [hdiv, hp]; decide
      have hcast := powMod_cast hlt 3 ((p - 1) / q)
      rw [hval, h3, hcon] at hcast
      have := eq_one_of_cast_one hlt (by rw [hp]; norm_num) hcast
      norm_num at this

/-! ### `modInverse` is the modular inverse -/

theorem egcdAux_bezout :
    ∀ (fuel : ℕ) (a b : ℕ), b ≤ fuel →
      (a : Int) * (egcdAux fuel a b).1 + (b : Int) * (egcdAux fuel a b).2 = Nat.gcd a b := by
  intro fuel
  induction fuel with
  | zero =>
    intro a b hb
    interval_cases b
    simp [egcdAux]
  | succ fuel ih =>
    intro a b hb
    by_cases hb0 : b = 0
    · subst hb0; simp [egcdAux]
    · have hmod : a % b ≤ fuel := by
        have := Nat.mod_lt a (y := b) (Nat.pos_of_ne_zero hb0)
        omega
      have hrec := ih b (a % b) hmod
      have hgcd : Nat.gcd a b = Nat.gcd b (a % b) := by
        rw [Nat.gcd_comm b (a % b), ← Nat.gcd_rec]
        exact Nat.gcd_comm a b
      simp only [egcdAux, if_neg hb0]
      rw [hgcd, ← hrec]
      have hdm : ((a % b : Nat) : Int) = (a : Int) - (b : Int) * ((a / b : Nat) : Int) := by
        have h2 : ((a % b : Nat) : Int) + (b : Int) * ((a / b : Nat) : Int) = (a : Int) := by
          exact_mod_cast congrArg (Nat.cast : ℕ → ℤ) (Nat.mod_add_div a b)
        omega
      rw [hdm]
      ring

/-- For a positive modulus and coprime argument, `modInverse` returns a value
in `[0, n)` that casts to the `ZMod` inverse. -/
theorem modInverse_spec {n g : Int} (hn : 2 ≤ n)
    (hg : ((g : ZMod n.toNat)) ≠ 0) (hp : n.toNat.Prime) :
    ∃ v, modInverse g n = some v ∧ 0 ≤ v ∧ v < n ∧
      (v : ZMod n.toNat) = (g : ZMod n.toNat)⁻¹ := by
  haveI : Fact n.toNat.Prime := ⟨hp⟩
  have hn0 : (0 : Int) < n := by omega
  have hnn : ¬ n ≤ 0 := by omega
  have hg' : 0 ≤ g % n := Int.emod_nonneg g (by omega)
  have hglt : g % n < n := Int.emod_lt_of_pos g hn0
  have hntn : ((n.toNat : Nat) : Int) = n := Int.toNat_of_nonneg (by omega)
  have hcast_g : (((g % n).toNat : Nat) : ZMod n.toNat) = (g : ZMod n.toNat) := by
    have h1 : (((g % n).toNat : Nat) : Int) = g % n := Int.toNat_of_nonneg hg'
    calc (((g % n).toNat : Nat) : ZMod n.toNat)
        = (((((g % n).toNat : Nat) : Int)) : ZMod n.toNat) := by push_cast; ring
      _ = ((g % n : Int) : ZMod n.toNat) := by rw [h1]
      _ = (g : ZMod n.toNat) := by
          rw [ZMod.intCast_eq_intCast_iff', hntn]
          exact Int.emod_emod_of_dvd g dvd_rfl
  have hnd : ¬ (n.toNat ∣ (g % n).toNat) := by
    intro hdvd
    apply hg
    rw [← hcast_g]
    exact (ZMod.natCast_zmod_eq_zero_iff_dvd _ _).mpr hdvd
  have hcop : Nat.gcd ((g % n).toNat) n.toNat = 1 := by
    have := (Nat.Prime.coprime_iff_not_dvd hp).mpr hnd
    exact Nat.coprime_comm.mp this
  refine ⟨(egcdAux n.toNat (g % n).toNat n.toNat).1 % n, ?_, ?_, ?_, ?_⟩
  · simp only [modInverse, if_neg hnn]
    rw [if_pos hcop]
  · exact Int.emod_nonneg _ (by omega)
  · exact Int.emod_lt_of_pos _ hn0
  · have hbez := egcdAux_bezout n.toNat ((g % n).toNat) n.toNat le_rfl
    rw [hcop] at hbez
    -- cast Bezout into ZMod
    have hz : ((( (g % n).toNat : Nat) : ZMod n.toNat)) *
        (((egcdAux n.toNat (g % n).toNat n.toNat).1 : Int) : ZMod n.toNat) = 1 := by
      have hzz := congrArg (fun t : Int => (t : ZMod n.toNat)) hbez
      push_cast at hzz
      rwa [ZMod.natCast_self, zero_mul, add_zero] at hzz
    rw [hcast_g] at hz
    have hinv : (((egcdAux n.toNat (g % n).toNat n.toNat).1 : Int) : ZMod n.toNat) =
        (g : ZMod n.toNat)⁻¹ := eq_inv_of_mul_eq_one_right hz
    calc (((egcdAux n.toNat (g % n).toNat n.toNat).1 % n : Int) : ZMod n.toNat)
        = (((egcdAux n.toNat (g % n).toNat n.toNat).1 : Int) : ZMod n.toNat) := by
          rw [ZMod.intCast_eq_intCast_iff', hntn]
          exact Int.emod_emod_of_dvd _ dvd_rfl
      _ = (g : ZMod n.toNat)⁻¹ := hinv

/-! ### Value/`ZMod` bridging helpers -/

theorem intCast_mod_P {P : ℕ} {p : Int} (hP : ((P : Nat) : Int) = p) (a : Int) :
    ((a % p : Int) : ZMod P) = (a : ZMod P) := by
  rw [ZMod.intCast_eq_intCast_iff', hP]
  exact Int.emod_emod_of_dvd _ dvd_rfl

/-- Two integers in `[0, p)` with equal `ZMod p.toNat` casts are equal. -/
theorem eq_of_cast_eq {p a b : Int} (hp : 2 ≤ p)
    (ha : 0 ≤ a) (ha' : a < p) (hb : 0 ≤ b) (hb' : b < p)
    (h : (a : ZMod p.toNat) = (b : ZMod p.toNat)) : a = b := by
  have hP : ((p.toNat : Nat) : Int) = p := Int.toNat_of_nonneg (by omega)
  have := (ZMod.intCast_eq_intCast_iff' a b p.toNat).mp h
  rw [hP] at this
  rwa [Int.emod_eq_of_lt ha (by omega), Int.emod_eq_of_lt hb (by omega)] at this

/-! ### Byte-level facts: `bytesToNat`, `natBytes`, `paddedBigint`,
`blockBytes`, `rebuildChunks` -/

theorem bytesToNat_snoc (l : List Nat) (b : Nat) :
    bytesToNat (l ++ [b]) = bytesToNat l * 256 + b := by
  simp [bytesToNat, List.foldl_append]

theorem bytesToNat_le_acc (l : List Nat) :
    ∀ acc, acc ≤ l.foldl (fun a b => a * 256 + b) acc := by
  induction l with
  | nil => intro acc; exact le_rfl
  | cons b t ih =>
    intro acc
    calc acc ≤ acc * 256 + b := by nlinarith
      _ ≤ t.foldl (fun a b => a * 256 + b) (acc * 256 + b) := ih _

theorem bytesToNat_pos {b : Nat} (hb : b ≠ 0) (t : List Nat) :
    0 < bytesToNat (b :: t) := by
  have h : bytesToNat (b :: t) = t.foldl (fun a b => a * 256 + b) b := by
    simp [bytesToNat]
  rw [h]
  have := bytesToNat_le_acc t b
  omega

theorem bytesToNat_lt (l : List Nat) (h : ∀ x ∈ l, x < 256) :
    bytesToNat l < 256 ^ l.length := by
  induction l using List.reverseRecOn with
  | nil => simp [bytesToNat]
  | append_singleton t b ih =>
    rw [bytesToNat_snoc]
    have hb : b < 256 := h b (by simp)
    have ht : bytesToNat t < 256 ^ t.length := ih (fun x hx => h x (by simp [hx]))
    have : t.length + 1 = (t ++ [b]).length := by simp
    rw [← this, pow_succ]
    nlinarith

theorem natBytesAux_congr : ∀ n f1 f2, n ≤ f1 → n ≤ f2 →
    natBytesAux f1 n = natBytesAux f2 n := by
  intro n
  induction n using Nat.strong_induction_on with
  | _ n ih =>
    intro f1 f2 h1 h2
    match f1, f2 with
    | 0, 0 => rfl
    | 0, f2 + 1 =>
      interval_cases n
      simp [natBytesAux]
    | f1 + 1, 0 =>
      interval_cases n
      simp [natBytesAux]
    | f1 + 1, f2 + 1 =>
      by_cases hn : n = 0
      · simp [natBytesAux, hn]
      · simp only [natBytesAux, if_neg hn]
        have hdiv : n / 256 < n := Nat.div_lt_self (by omega) (by omega)
        rw [ih (n / 256) hdiv f1 f2 (by omega) (by omega)]

theorem natBytes_eq (n : Nat) :
    natBytes n = if n = 0 then [] else natBytes (n / 256) ++ [n % 256] := by
  by_cases hn : n = 0
  · subst hn; rfl
  · rw [if_neg hn]
    obtain ⟨m, rfl⟩ : ∃ m, n = m + 1 := ⟨n - 1, by omega⟩
    show natBytesAux (m + 1) (m + 1) = _
    simp only [natBytesAux, if_neg hn]
    congr 1
    exact natBytesAux_congr ((m + 1) / 256) m ((m + 1) / 256)
      (by have := Nat.div_lt_self (show 0 < m + 1 by omega) (show 1 < 256 by omega); omega)
      le_rfl

theorem bytesToNat_natBytes (n : Nat) : bytesToNat (natBytes n) = n := by
  induction n using Nat.strong_induction_on with
  | _ n ih =>
    rw [natBytes_eq]
    by_cases hn : n = 0
    · simp [hn, bytesToNat]
    · rw [if_neg hn, bytesToNat_snoc,
        ih (n / 256) (Nat.div_lt_self (by omega) (by omega))]
      omega

theorem natBytes_bytes (n : Nat) : ∀ x ∈ natBytes n, x < 256 := by
  induction n using Nat.strong_induction_on with
  | _ n ih =>
    rw [natBytes_eq]
    by_cases hn : n = 0
    · simp [hn]
    · rw [if_neg hn]
      intro x hx
      rcases List.mem_append.mp hx with hx | hx
      · exact ih (n / 256) (Nat.div_lt_self (by omega) (by omega)) x hx
      · have : x = n % 256 := by simpa using hx
        have := Nat.mod_lt n (y := 256) (by omega)
        omega

theorem natBytes_of_head_ne : ∀ (l : List Nat), (∀ x ∈ l, x < 256) →
    (∀ b t, l = b :: t → b ≠ 0) → natBytes (bytesToNat l) = l := by
  intro l
  induction l using List.reverseRecOn with
  | nil => intro _ _; simp [bytesToNat, natBytes, natBytesAux]
  | append_singleton t c ih =>
    intro hlt hhd
    match ht : t with
    | [] =>
      have hc : c ≠ 0 := hhd c [] (by simp)
      have hc' : c < 256 := hlt c (by simp)
      show natBytes (bytesToNat [c]) = [c]
      have hb : bytesToNat [c] = c := by simp [bytesToNat]
      rw [hb, natBytes_eq, if_neg hc, Nat.div_eq_of_lt hc', Nat.mod_eq_of_lt hc']
      simp [natBytes, natBytesAux]
    | b :: t' =>
      have hb : b ≠ 0 := hhd b (t' ++ [c]) (by simp)
      have hpos : 0 < bytesToNat (b :: t') := bytesToNat_pos hb t'
      have hc' : c < 256 := hlt c (by simp)
      rw [bytesToNat_snoc]
      rw [natBytes_eq, if_neg (by positivity)]
      have hdiv : (bytesToNat (b :: t') * 256 + c) / 256 = bytesToNat (b :: t') := by
        omega
      have hmod : (bytesToNat (b :: t') * 256 + c) % 256 = c := by
        omega
      rw [hdiv, hmod, ih (fun x hx => hlt x (by
          rcases List.mem_cons.mp hx with h | h
          · simp [h]
          · simp [h]))
        (fun b' t'' h => by
          injection h with h1 h2
          rw [← h1]; exact hb)]

/-- With strictly positive in-range bytes, `paddedBigint` undoes
`bytesToNat` for every minimum length not exceeding the byte count. -/
theorem paddedBigint_exact (l : List Nat) (hl : ∀ x ∈ l, 0 < x ∧ x < 256)
    (m : Nat) (hm : m ≤ l.length) :
    paddedBigint (Int.ofNat (bytesToNat l)) m = l := by
  have hnb : natBytes (bytesToNat l) = l := by
    apply natBytes_of_head_ne l (fun x hx => (hl x hx).2)
    intro b t hbt
    have := (hl b (by rw [hbt]; simp)).1
    omega
  have habs : (Int.ofNat (bytesToNat l)).natAbs = bytesToNat l := rfl
  simp only [paddedBigint, habs, hnb]
  rw [if_neg (by omega)]

theorem blockBytesAux_congr : ∀ (len : Nat) (data : List Nat), data.length ≤ len →
    ∀ f1 f2 size, 1 ≤ size → data.length ≤ f1 → data.length ≤ f2 →
      blockBytesAux f1 data size = blockBytesAux f2 data size := by
  intro len
  induction len using Nat.strong_induction_on with
  | _ len ih =>
    intro data hdata f1 f2 size hsize h1 h2
    match f1, f2 with
    | 0, 0 => rfl
    | 0, f2 + 1 =>
      have : data = [] := List.length_eq_zero.mp (by omega)
      simp [blockBytesAux, this]
    | f1 + 1, 0 =>
      have : data = [] := List.length_eq_zero.mp (by omega)
      simp [blockBytesAux, this]
    | f1 + 1, f2 + 1 =>
      by_cases hd : data = []
      · simp [blockBytesAux, hd]
      · simp only [blockBytesAux, if_neg hd]
        have hlen : (data.drop size).length < data.length := by
          rw [List.length_drop]
          have : 0 < data.length := List.length_pos.mpr hd
          omega
        have hlenle : data.length ≤ len ∨ len < data.length := le_or_lt _ _
        congr 1
        exact ih ((data.drop size).length) (by omega) (data.drop size) le_rfl f1 f2 size hsize
          (by omega) (by omega)

theorem blockBytes_eq (data : List Nat) (size : Nat) (hsize : 1 ≤ size) :
    blockBytes data size =
      if data = [] then [] else data.take size :: blockBytes (data.drop size) size := by
  by_cases hd : data = []
  · simp [blockBytes, blockBytesAux, hd]
  · rw [if_neg hd]
    have hpos : 0 < data.length := List.length_pos.mpr hd
    obtain ⟨len, hlen⟩ : ∃ len, data.length = len + 1 := ⟨data.length - 1, by omega⟩
    show blockBytesAux data.length data size = _
    rw [hlen]
    simp only [blockBytesAux, if_neg hd]
    congr 1
    apply blockBytesAux_congr (data.drop size).length (data.drop size) le_rfl len
      (data.drop size).length size hsize ?_ le_rfl
    rw [List.length_drop]
    omega

theorem blockBytes_ne_nil (data : List Nat) (size : Nat) (hsize : 1 ≤ size)
    (hd : data ≠ []) : blockBytes data size ≠ [] := by
  rw [blockBytes_eq data size hsize, if_neg hd]
  simp

theorem rebuildChunks_cons (S BS : Nat) (c : Int) (rest : List Int) (h : rest ≠ []) :
    rebuildChunks S BS (c :: rest) = paddedBigint c BS ++ rebuildChunks S BS rest := by
  match rest, h with
  | c' :: rest', _ => rfl

/-- The key reassembly fact: when all bytes are non-zero and in range,
`rebuildChunks` applied to the block values restores the original bytes, for
any total size `S` congruent to the data length mod the block size. -/
theorem rebuildChunks_blocks (BS : Nat) (hBS : 1 ≤ BS) :
    ∀ (n : Nat) (data : List Nat), data.length ≤ n →
    (∀ x ∈ data, 0 < x ∧ x < 256) → data ≠ [] → ∀ S, S % BS = data.length % BS →
    rebuildChunks S BS ((blockBytes data BS).map (fun b => Int.ofNat (bytesToNat b))) = data := by
  intro n
  induction n using Nat.strong_induction_on with
  | _ n ih =>
    intro data hlen hgood hne S hS
    by_cases hsmall : data.length ≤ BS
    · have hdrop : data.drop BS = [] := List.drop_eq_nil_of_le hsmall
      have htake : data.take BS = data := List.take_all_of_le hsmall
      rw [blockBytes_eq data BS hBS, if_neg hne, hdrop, blockBytes_eq [] BS hBS, if_pos rfl,
        htake]
      show rebuildChunks S BS [Int.ofNat (bytesToNat data)] = data
      show paddedBigint (Int.ofNat (bytesToNat data)) (S % BS) = data
      apply paddedBigint_exact data hgood
      rw [hS]
      exact Nat.mod_le data.length BS
    · push_neg at hsmall
      have hpos : 0 < data.length := by omega
      have hdropne : data.drop BS ≠ [] := by
        intro h
        have := congrArg List.length h
        rw [List.length_drop] at this
        simp at this
        omega
      have hrestne : (blockBytes (data.drop BS) BS).map
          (fun b => Int.ofNat (bytesToNat b)) ≠ [] := by
        intro h
        exact blockBytes_ne_nil _ BS hBS hdropne (List.map_eq_nil.mp h)
      rw [blockBytes_eq data BS hBS, if_neg hne, List.map_cons,
        rebuildChunks_cons _ _ _ _ hrestne]
      have htake : paddedBigint (Int.ofNat (bytesToNat (data.take BS))) BS = data.take BS := by
        apply paddedBigint_exact _ (fun x hx => hgood x (List.take_subset BS data hx))
        rw [List.length_take]
        omega
      have hdroplen : (data.drop BS).length = data.length - BS := List.length_drop BS data
      have hrest : rebuildChunks S BS ((blockBytes (data.drop BS) BS).map
          (fun b => Int.ofNat (bytesToNat b))) = data.drop BS := by
        apply ih (data.drop BS).length (by omega) (data.drop BS) le_rfl
          (fun x hx => hgood x (List.drop_subset BS data hx)) hdropne
        rw [hS, hdroplen]
        conv_lhs => rw [show data.length = (data.length - BS) + BS by omega]
        rw [Nat.add_mod_right]
      rw [htake, hrest, List.take_append_drop]

/-! ### Base64 roundtrip and character-set facts -/

theorem b64Byte_facts : ∀ i < 64, (43 ≤ b64Byte i ∧ b64Byte i ≤ 122 ∧
    b64Byte i ≠ 61 ∧ b64Byte i ≠ 34 ∧ b64Val (b64Byte i) = some i) := by decide

theorem b64encode_range : ∀ (l : List Nat), (∀ x ∈ l, x < 256) →
    ∀ c ∈ b64encode l, 43 ≤ c ∧ c ≤ 122
  | [] => by intro _ c hc; simp [b64encode] at hc
  | [b1] => by
    intro h c hc
    have h1 : b1 < 256 := h b1 (by simp)
    have f1 := b64Byte_facts (b1 / 4) (by omega)
    have f2 := b64Byte_facts (b1 % 4 * 16) (by have := Nat.mod_lt b1 (y := 4); omega)
    simp only [b64encode, List.mem_cons, List.not_mem_nil, or_false] at hc
    rcases hc with rfl | rfl | rfl | rfl <;> omega
  | [b1, b2] => by
    intro h c hc
    have h1 : b1 < 256 := h b1 (by simp)
    have h2 : b2 < 256 := h b2 (by simp)
    have f1 := b64Byte_facts (b1 / 4) (by omega)
    have f2 := b64Byte_facts (b1 % 4 * 16 + b2 / 16)
      (by have := Nat.mod_lt b1 (y := 4); omega)
    have f3 := b64Byte_facts (b2 % 16 * 4) (by have := Nat.mod_lt b2 (y := 16); omega)
    simp only [b64encode, List.mem_cons, List.not_mem_nil, or_false] at hc
    rcases hc with rfl | rfl | rfl | rfl <;> omega
  | b1 :: b2 :: b3 :: rest => by
    intro h c hc
    have h1 : b1 < 256 := h b1 (by simp)
    have h2 : b2 < 256 := h b2 (by simp)
    have h3 : b3 < 256 := h b3 (by simp)
    have f1 := b64Byte_facts (b1 / 4) (by omega)
    have f2 := b64Byte_facts (b1 % 4 * 16 + b2 / 16)
      (by have := Nat.mod_lt b1 (y := 4); omega)
    have f3 := b64Byte_facts (b2 % 16 * 4 + b3 / 64)
      (by have := Nat.mod_lt b2 (y := 16); omega)
    have f4 := b64Byte_facts (b3 % 64) (by have := Nat.mod_lt b3 (y := 64); omega)
    have hrec := b64encode_range rest (fun x hx => h x (by simp [hx]))
    match rest, hc with
    | [], hc =>
      simp only [b64encode, List.mem_cons, List.not_mem_nil, or_false] at hc
      rcases hc with rfl | rfl | rfl | rfl <;> omega
    | r :: rest', hc =>
      simp only [b64encode, List.mem_cons] at hc
      rcases hc with rfl | rfl | rfl | rfl | hc
      · omega
      · omega
      · omega
      · omega
      · exact hrec c (by simpa [b64encode] using hc)

theorem b64decode_encode : ∀ (l : List Nat), (∀ x ∈ l, x < 256) →
    b64decode (b64encode l) = some l
  | [] => by intro _; rfl
  | [b1] => by
    intro h
    have h1 : b1 < 256 := h b1 (by simp)
    have f1 := b64Byte_facts (b1 / 4) (by omega)
    have f2 := b64Byte_facts (b1 % 4 * 16) (by have := Nat.mod_lt b1 (y := 4); omega)
    show b64decode [b64Byte (b1 / 4), b64Byte (b1 % 4 * 16), 61, 61] = some [b1]
    rw [b64decode, if_pos ⟨rfl, rfl, rfl⟩, f1.2.2.2.2, f2.2.2.2.2]
    show some [b1 / 4 * 4 + b1 % 4 * 16 / 16] = some [b1]
    have e1 : b1 / 4 * 4 + b1 % 4 * 16 / 16 = b1 := by omega
    rw [e1]
  | [b1, b2] => by
    intro h
    have h1 : b1 < 256 := h b1 (by simp)
    have h2 : b2 < 256 := h b2 (by simp)
    have f1 := b64Byte_facts (b1 / 4) (by omega)
    have f2 := b64Byte_facts (b1 % 4 * 16 + b2 / 16)
      (by have := Nat.mod_lt b1 (y := 4); omega)
    have f3 := b64Byte_facts (b2 % 16 * 4) (by have := Nat.mod_lt b2 (y := 16); omega)
    show b64decode [b64Byte (b1 / 4), b64Byte (b1 % 4 * 16 + b2 / 16),
      b64Byte (b2 % 16 * 4), 61] = some [b1, b2]
    rw [b64decode, if_neg (by intro hcon; exact f3.2.2.1 hcon.1), if_pos ⟨rfl, rfl⟩,
      f1.2.2.2.2, f2.2.2.2.2, f3.2.2.2.2]
    show some [b1 / 4 * 4 + (b1 % 4 * 16 + b2 / 16) / 16,
      (b1 % 4 * 16 + b2 / 16) % 16 * 16 + b2 % 16 * 4 / 4] = some [b1, b2]
    have e1 : b1 / 4 * 4 + (b1 % 4 * 16 + b2 / 16) / 16 = b1 := by omega
    have e2 : (b1 % 4 * 16 + b2 / 16) % 16 * 16 + b2 % 16 * 4 / 4 = b2 := by omega
    rw [e1, e2]
  | b1 :: b2 :: b3 :: rest => by
    intro h
    have h1 : b1 < 256 := h b1 (by simp)
    have h2 : b2 < 256 := h b2 (by simp)
    have h3 : b3 < 256 := h b3 (by simp)
    have f1 := b64Byte_facts (b1 / 4) (by omega)
    have f2 := b64Byte_facts (b1 % 4 * 16 + b2 / 16)
      (by have := Nat.mod_lt b1 (y := 4); omega)
    have f3 := b64Byte_facts (b2 % 16 * 4 + b3 / 64)
      (by have := Nat.mod_lt b2 (y := 16); omega)
    have f4 := b64Byte_facts (b3 % 64) (by have := Nat.mod_lt b3 (y := 64); omega)
    have hrec := b64decode_encode rest (fun x hx => h x (by simp [hx]))
    show b64decode (b64Byte (b1 / 4) :: b64Byte (b1 % 4 * 16 + b2 / 16) ::
      b64Byte (b2 % 16 * 4 + b3 / 64) :: b64Byte (b3 % 64) :: b64encode rest) = _
    rw [b64decode, if_neg (by intro hcon; exact f3.2.2.1 hcon.1),
      if_neg (by intro hcon; exact f4.2.2.1 hcon.1),
      f1.2.2.2.2, f2.2.2.2.2, f3.2.2.2.2, f4.2.2.2.2, hrec]
    show some ((b1 / 4 * 4 + (b1 % 4 * 16 + b2 / 16) / 16) ::
      ((b1 % 4 * 16 + b2 / 16) % 16 * 16 + (b2 % 16 * 4 + b3 / 64) / 4) ::
      ((b2 % 16 * 4 + b3 / 64) % 4 * 64 + b3 % 64) :: rest) = _
    have e1 : b1 / 4 * 4 + (b1 % 4 * 16 + b2 / 16) / 16 = b1 := by omega
    have e2 : (b1 % 4 * 16 + b2 / 16) % 16 * 16 + (b2 % 16 * 4 + b3 / 64) / 4 = b2 := by
      omega
    have e3 : (b2 % 16 * 4 + b3 / 64) % 4 * 64 + b3 % 64 = b3 := by omega
    rw [e1, e2, e3]

/-! ### Decimal digits -/

theorem natDecimalAux_congr : ∀ n f1 f2, n < f1 → n < f2 →
    natDecimalAux f1 n = natDecimalAux f2 n := by
  intro n
  induction n using Nat.strong_induction_on with
  | _ n ih =>
    intro f1 f2 h1 h2
    obtain ⟨g1, rfl⟩ : ∃ g1, f1 = g1 + 1 := ⟨f1 - 1, by omega⟩
    obtain ⟨g2, rfl⟩ : ∃ g2, f2 = g2 + 1 := ⟨f2 - 1, by omega⟩
    by_cases hn : n < 10
    · simp [natDecimalAux, hn]
    · simp only [natDecimalAux, if_neg hn]
      have hdiv : n / 10 < n := Nat.div_lt_self (by omega) (by omega)
      rw [ih (n / 10) hdiv g1 g2 (by omega) (by omega)]

theorem natDecimal_eq (n : Nat) :
    natDecimal n = if n < 10 then [48 + n] else natDecimal (n / 10) ++ [48 + n % 10] := by
  by_cases hn : n < 10
  · simp [natDecimal, natDecimalAux, hn]
  · rw [if_neg hn]
    show natDecimalAux (n + 1) n = _
    obtain ⟨m, hm⟩ : ∃ m, n + 1 = m + 1 := ⟨n, rfl⟩
    simp only [natDecimalAux, if_neg hn]
    congr 1
    exact natDecimalAux_congr (n / 10) n (n / 10 + 1)
      (Nat.div_lt_self (by omega) (by omega)) (by omega)

theorem parseDecimal_snoc (l : List Nat) (d : Nat) :
    parseDecimal (l ++ [d]) = parseDecimal l * 10 + (d - 48) := by
  simp [parseDecimal, List.foldl_append]

theorem parseDecimal_natDecimal (n : Nat) : parseDecimal (natDecimal n) = n := by
  induction n using Nat.strong_induction_on with
  | _ n ih =>
    rw [natDecimal_eq]
    by_cases hn : n < 10
    · simp [hn, parseDecimal]
    · rw [if_neg hn, parseDecimal_snoc, ih (n / 10) (Nat.div_lt_self (by omega) (by omega))]
      omega

theorem natDecimal_range (n : Nat) : ∀ c ∈ natDecimal n, 48 ≤ c ∧ c ≤ 57 := by
  induction n using Nat.strong_induction_on with
  | _ n ih =>
    rw [natDecimal_eq]
    by_cases hn : n < 10
    · intro c hc
      rw [if_pos hn] at hc
      simp at hc
      omega
    · intro c hc
      rw [if_neg hn] at hc
      rcases List.mem_append.mp hc with hc | hc
      · exact ih (n / 10) (Nat.div_lt_self (by omega) (by omega)) c hc
      · have : c = 48 + n % 10 := by simpa using hc
        have := Nat.mod_lt n (y := 10) (by omega)
        omega

/-! ### JSON codec roundtrip for the internal secret -/

theorem expectLit_append (lit rest : List Nat) : expectLit lit (lit ++ rest) = some rest := by
  rw [expectLit, if_pos, List.drop_left]
  exact List.isPrefixOf_iff_prefix.mpr (List.prefix_append lit rest)

theorem takeWhile_middle (p : Nat → Bool) (l1 : List Nat) (b : Nat) (l2 : List Nat)
    (h1 : ∀ a ∈ l1, p a = true) (hb : p b = false) :
    (l1 ++ b :: l2).takeWhile p = l1 ∧ (l1 ++ b :: l2).dropWhile p = b :: l2 := by
  induction l1 with
  | nil => simp [List.takeWhile, List.dropWhile, hb]
  | cons a t ih =>
    have ha : p a = true := h1 a (by simp)
    have := ih (fun x hx => h1 x (by simp [hx]))
    simp [List.takeWhile, List.dropWhile, ha, this.1, this.2]

theorem marshalSecretFormat_range (s : secretFormat)
    (hk : ∀ x ∈ s.Key, x < 256) (hd : ∀ x ∈ s.Data, x < 256) :
    ∀ c ∈ marshalSecretFormat s, 34 ≤ c ∧ c ≤ 125 := by
  intro c hc
  rw [marshalSecretFormat] at hc
  simp only [List.mem_append] at hc
  rcases hc with ((((((hc | hc) | hc) | hc) | hc) | hc) | hc)
  · rw [jsonLitV] at hc; simp at hc; omega
  · have := natDecimal_range s.Version c hc; omega
  · rw [jsonLitK] at hc; simp at hc; omega
  · have := b64encode_range s.Key hk c hc; omega
  · rw [jsonLitS] at hc; simp at hc; omega
  · have := b64encode_range s.Data hd c hc; omega
  · rw [jsonLitEnd] at hc; simp at hc; omega

theorem parseSecretFormat_marshal (s : secretFormat)
    (hk : ∀ x ∈ s.Key, x < 256) (hd : ∀ x ∈ s.Data, x < 256) :
    parseSecretFormat (marshalSecretFormat s) = some s := by
  have hdig : ∀ a ∈ natDecimal s.Version, (fun b => decide (48 ≤ b ∧ b ≤ 57)) a = true := by
    intro a ha
    have := natDecimal_range s.Version a ha
    simp only [decide_eq_true_eq]
    omega
  have hkb : ∀ a ∈ b64encode s.Key, (fun b => decide (b ≠ 34)) a = true := by
    intro a ha
    have := b64encode_range s.Key hk a ha
    simp only [decide_eq_true_eq]
    omega
  have hdb : ∀ a ∈ b64encode s.Data, (fun b => decide (b ≠ 34)) a = true := by
    intro a ha
    have := b64encode_range s.Data hd a ha
    simp only [decide_eq_true_eq]
    omega
  have hm : marshalSecretFormat s = jsonLitV ++ (natDecimal s.Version ++
      (44 :: ([34, 107, 34, 58, 34] ++ (b64encode s.Key ++
      (34 :: ([44, 34, 115, 34, 58, 34] ++ (b64encode s.Data ++
      (34 :: ([125] ++ ([] : List Nat)))))))))) := by
    simp [marshalSecretFormat, jsonLitK, jsonLitS, jsonLitEnd, List.append_assoc]
  have htw1 := takeWhile_middle (fun b => decide (48 ≤ b ∧ b ≤ 57)) (natDecimal s.Version)
    44 ([34, 107, 34, 58, 34] ++ (b64encode s.Key ++
      (34 :: ([44, 34, 115, 34, 58, 34] ++ (b64encode s.Data ++
      (34 :: ([125] ++ ([] : List Nat)))))))) hdig (by simp)
  have htw2 := takeWhile_middle (fun b => decide (b ≠ 34)) (b64encode s.Key)
    34 ([44, 34, 115, 34, 58, 34] ++ (b64encode s.Data ++
      (34 :: ([125] ++ ([] : List Nat))))) hkb (by simp)
  have htw3 := takeWhile_middle (fun b => decide (b ≠ 34)) (b64encode s.Data)
    34 ([125] ++ ([] : List Nat)) hdb (by simp)
  rw [parseSecretFormat, hm, expectLit_append, Option.some_bind]
  rw [htw1.2, htw1.1]
  rw [show (44 : Nat) :: ([34, 107, 34, 58, 34] ++ (b64encode s.Key ++
      (34 :: ([44, 34, 115, 34, 58, 34] ++ (b64encode s.Data ++
      (34 :: ([125] ++ ([] : List Nat)))))))) =
      jsonLitK ++ (b64encode s.Key ++ (34 :: ([44, 34, 115, 34, 58, 34] ++
      (b64encode s.Data ++ (34 :: ([125] ++ ([] : List Nat))))))) by simp [jsonLitK]]
  rw [expectLit_append, Option.some_bind]
  rw [htw2.2, htw2.1]
  rw [show (34 : Nat) :: ([44, 34, 115, 34, 58, 34] ++ (b64encode s.Data ++
      (34 :: ([125] ++ ([] : List Nat))))) =
      jsonLitS ++ (b64encode s.Data ++ (34 :: ([125] ++ ([] : List Nat)))) by simp [jsonLitS]]
  rw [expectLit_append, Option.some_bind]
  rw [htw3.2, htw3.1]
  rw [show (34 : Nat) :: ([125] ++ ([] : List Nat)) = jsonLitEnd ++ ([] : List Nat) by
    simp [jsonLitEnd]]
  rw [expectLit_append, Option.some_bind]
  rw [if_neg (by simp)]
  rw [b64decode_encode s.Key hk, Option.some_bind, b64decode_encode s.Data hd,
    Option.some_bind, parseDecimal_natDecimal]

/-! ### Horner evaluation -/

theorem hornerEval_nil (x : Int) : hornerEval [] x = 0 := rfl

theorem hornerEval_cons (c : Int) (f : List Int) (x : Int) :
    hornerEval (c :: f) x = hornerEval f x * x + c := rfl

theorem hornerEval_zero (f : List Int) : hornerEval f 0 = f.getD 0 0 := by
  cases f with
  | nil => rfl
  | cons c t => rw [hornerEval_cons]; simp

/-- The modular Horner fold of `EvaluateMod` computes `hornerEval` reduced
mod `p`. -/
theorem foldr_mod_horner (f : List Int) (x p : Int) :
    f.foldr (fun c acc => (acc * x + c) % p) 0 = hornerEval f x % p := by
  induction f with
  | nil => simp [hornerEval]
  | cons c t ih =>
    show (t.foldr (fun c acc => (acc * x + c) % p) 0 * x + c) % p = _
    rw [ih, hornerEval_cons]
    have hme : Int.ModEq p (hornerEval t x % p) (hornerEval t x) :=
      Int.emod_emod_of_dvd _ dvd_rfl
    exact (hme.mul_right x).add_right c

theorem hornerEval_cast (P : ℕ) (f : List Int) (x : Int) :
    ((hornerEval f x : Int) : ZMod P) =
      ∑ i ∈ Finset.range f.length,
        ((f.getD i 0 : Int) : ZMod P) * ((x : Int) : ZMod P) ^ i := by
  induction f with
  | nil => simp [hornerEval]
  | cons c t ih =>
    rw [hornerEval_cons]
    push_cast
    rw [ih]
    rw [List.length_cons, Finset.sum_range_succ']
    simp only [List.getD_cons_succ, List.getD_cons_zero, pow_zero, mul_one, pow_succ,
      Finset.sum_mul]
    congr 1
    exact Finset.sum_congr rfl fun i _ => by ring

/-! ### `EvaluateMod` under a valid modulus -/

theorem EvaluateMod_eq (f : Poly) (x p : Int) (hmr : millerRabin p = true) :
    EvaluateMod f x (some p) = (f, x % p, some (hornerEval f (x % p) % p)) := by
  rw [EvaluateMod, if_neg (by simp [goProbablyPrime, hmr])]
  simp only [Option.getD_some]
  rw [foldr_mod_horner]

/-! ### `uniquePoints` facts -/

theorem uniquePointsAux_of_nodup :
    ∀ (pts seen : List Point), (∀ pt ∈ pts, ∀ q ∈ seen, q.X ≠ pt.X) →
      ((pts.map Point.X).Nodup) → uniquePointsAux seen pts = (pts, false) := by
  intro pts
  induction pts with
  | nil => intro seen _ _; rfl
  | cons pt rest ih =>
    intro seen hseen hnd
    rw [uniquePointsAux]
    have hfind : seen.find? (fun q => q.X == pt.X) = none := by
      rw [List.find?_eq_none]
      intro q hq
      simpa using hseen pt (by simp) q hq
    rw [hfind]
    have hrest : uniquePointsAux (seen ++ [pt]) rest = (rest, false) := by
      apply ih
      · intro pt' hpt' q hq
        rcases List.mem_append.mp hq with hq | hq
        · exact hseen pt' (by simp [hpt']) q hq
        · have hqpt : q = pt := by simpa using hq
          subst hqpt
          simp only [List.map_cons, List.nodup_cons] at hnd
          intro hx
          exact hnd.1 (hx ▸ List.mem_map_of_mem Point.X hpt')
      · simp only [List.map_cons, List.nodup_cons] at hnd
        exact hnd.2
    rw [hrest]

theorem uniquePoints_of_nodup (pts : List Point) (hnd : (pts.map Point.X).Nodup) :
    uniquePoints pts = (pts, false) :=
  uniquePointsAux_of_nodup pts [] (by simp) hnd

/-! ### List-to-Finset sum/product conversions -/

theorem sum_list_range {M : Type} [AddCommMonoid M] :
    ∀ (n : ℕ) (g : ℕ → M), ((List.range n).map g).sum = ∑ m ∈ Finset.range n, g m := by
  intro n
  induction n with
  | zero => intro g; simp
  | succ n ih =>
    intro g
    rw [List.range_succ, List.map_append, List.sum_append, Finset.sum_range_succ, ih]
    simp

theorem prod_filter_list_range {M : Type} [CommMonoid M] :
    ∀ (n j : ℕ) (g : ℕ → M),
      (((List.range n).filter (fun m => decide (m ≠ j))).map g).prod =
        ∏ m ∈ (Finset.range n).erase j, g m := by
  intro n j
  induction n with
  | zero => intro g; simp
  | succ n ih =>
    intro g
    rw [← Finset.filter_ne', Finset.prod_filter, Finset.prod_range_succ,
      ← Finset.prod_filter, Finset.filter_ne', List.range_succ, List.filter_append,
      List.map_append, List.prod_append, ih]
    by_cases hnj : n = j
    · simp [hnj]
    · have : (List.filter (fun m => decide (m ≠ j)) [n]) = [n] := by
        simp [List.filter, hnj]
      rw [this, if_pos hnj]
      simp

/-! ### The `InterpolateConst` inner loops -/

theorem icProdStep_some (p : Int) (pts : List Point) (j : Nat) (prod : Int) (m : Nat) :
    icProdStep p pts j (some prod) m =
      (if m = j then some prod
        else
          match modInverse ((pts.getD m ⟨0, 0⟩).X - (pts.getD j ⟨0, 0⟩).X) p with
          | none => none
          | some inv => some (prod * ((pts.getD m ⟨0, 0⟩).X * inv % p) % p)) := rfl

theorem icProd_foldl (p : Int) (hge : 2 ≤ p) (hp : p.toNat.Prime)
    (pts : List Point) (j : Nat)
    (hinv : ∀ m, m < pts.length → m ≠ j →
      ((((pts.getD m ⟨0, 0⟩).X - (pts.getD j ⟨0, 0⟩).X : Int)) : ZMod p.toNat) ≠ 0) :
    ∀ (L : List Nat), (∀ m ∈ L, m < pts.length) → ∀ acc : Int,
    ∃ w, L.foldl (icProdStep p pts j) (some acc) = some w ∧
      (w : ZMod p.toNat) = (acc : ZMod p.toNat) *
        ((L.filter (fun m => decide (m ≠ j))).map
          (fun m => ((pts.getD m ⟨0, 0⟩).X : ZMod p.toNat) *
            (((pts.getD m ⟨0, 0⟩).X : ZMod p.toNat) -
             ((pts.getD j ⟨0, 0⟩).X : ZMod p.toNat))⁻¹)).prod := by
  intro L
  induction L with
  | nil => intro _ acc; exact ⟨acc, rfl, by simp⟩
  | cons m L ih =>
    intro hmem acc
    rw [List.foldl_cons, icProdStep_some]
    by_cases hmj : m = j
    · rw [if_pos hmj]
      rw [show List.filter (fun m => decide (m ≠ j)) (m :: L) =
          List.filter (fun m => decide (m ≠ j)) L by simp [List.filter, hmj]]
      exact ih (fun x hx => hmem x (by simp [hx])) acc
    · obtain ⟨v, hv, hv0, hvlt, hvc⟩ := modInverse_spec (n := p)
        (g := (pts.getD m ⟨0, 0⟩).X - (pts.getD j ⟨0, 0⟩).X) hge
        (hinv m (hmem m (by simp)) hmj) hp
      rw [if_neg hmj, hv]
      obtain ⟨w, hw, hwc⟩ := ih (fun x hx => hmem x (by simp [hx]))
        (acc * ((pts.getD m ⟨0, 0⟩).X * v % p) % p)
      refine ⟨w, hw, ?_⟩
      rw [hwc]
      have hPP : ((p.toNat : Nat) : Int) = p := Int.toNat_of_nonneg (by omega)
      have hcast : ((acc * ((pts.getD m ⟨0, 0⟩).X * v % p) % p : Int) : ZMod p.toNat) =
          (acc : ZMod p.toNat) * (((pts.getD m ⟨0, 0⟩).X : ZMod p.toNat) *
            (((pts.getD m ⟨0, 0⟩).X : ZMod p.toNat) -
             ((pts.getD j ⟨0, 0⟩).X : ZMod p.toNat))⁻¹) := by
        rw [intCast_mod_P hPP]
        push_cast
        rw [intCast_mod_P hPP]
        push_cast
        rw [hvc]
        push_cast
        ring
      rw [hcast, show List.filter (fun m => decide (m ≠ j)) (m :: L) =
          m :: List.filter (fun m => decide (m ≠ j)) L by simp [List.filter, hmj],
        List.map_cons, List.prod_cons]
      ring

theorem icProd_spec (p : Int) (hge : 2 ≤ p) (hp : p.toNat.Prime)
    (pts : List Point) (j : Nat)
    (hinv : ∀ m, m < pts.length → m ≠ j →
      ((((pts.getD m ⟨0, 0⟩).X - (pts.getD j ⟨0, 0⟩).X : Int)) : ZMod p.toNat) ≠ 0) :
    ∃ w, icProd p pts j = some w ∧
      (w : ZMod p.toNat) = ∏ m ∈ (Finset.range pts.length).erase j,
        (((pts.getD m ⟨0, 0⟩).X : ZMod p.toNat) *
          (((pts.getD m ⟨0, 0⟩).X : ZMod p.toNat) -
           ((pts.getD j ⟨0, 0⟩).X : ZMod p.toNat))⁻¹) := by
  obtain ⟨w, hw, hwc⟩ := icProd_foldl p hge hp pts j hinv (List.range pts.length)
    (fun m hm => List.mem_range.mp hm) 1
  refine ⟨w, ?_, ?_⟩
  · rw [icProd]; exact hw
  · rw [hwc, prod_filter_list_range]
    push_cast
    ring

theorem icSumStep_some (p : Int) (pts : List Point) (L0 : Int) (j : Nat) :
    icSumStep p pts (some L0) j =
      (match icProd p pts j with
       | none => none
       | some prod => some ((L0 + (pts.getD j ⟨0, 0⟩).Y * prod) % p)) := rfl

theorem icSum_foldl (p : Int) (hge : 2 ≤ p) (hp : p.toNat.Prime)
    (pts : List Point)
    (hinv : ∀ j m, j < pts.length → m < pts.length → m ≠ j →
      ((((pts.getD m ⟨0, 0⟩).X - (pts.getD j ⟨0, 0⟩).X : Int)) : ZMod p.toNat) ≠ 0) :
    ∀ (L : List Nat), (∀ j ∈ L, j < pts.length) → ∀ acc : Int,
    ∃ w, L.foldl (icSumStep p pts) (some acc) = some w ∧
      ((L = [] → w = acc) ∧ (L ≠ [] → 0 ≤ w ∧ w < p)) ∧
      (w : ZMod p.toNat) = (acc : ZMod p.toNat) +
        (L.map (fun j => ((pts.getD j ⟨0, 0⟩).Y : ZMod p.toNat) *
          ∏ m ∈ (Finset.range pts.length).erase j,
            (((pts.getD m ⟨0, 0⟩).X : ZMod p.toNat) *
              (((pts.getD m ⟨0, 0⟩).X : ZMod p.toNat) -
               ((pts.getD j ⟨0, 0⟩).X : ZMod p.toNat))⁻¹))).sum := by
  intro L
  induction L with
  | nil =>
    intro _ acc
    exact ⟨acc, rfl, ⟨fun _ => rfl, fun h => absurd rfl h⟩, by simp⟩
  | cons j L ih =>
    intro hmem acc
    have hj : j < pts.length := hmem j (by simp)
    obtain ⟨prod, hprod, hprodc⟩ := icProd_spec p hge hp pts j
      (fun m hm hmj => hinv j m hj hm hmj)
    rw [List.foldl_cons, icSumStep_some, hprod]
    obtain ⟨w, hw, hwb, hwc⟩ := ih (fun x hx => hmem x (by simp [hx]))
      ((acc + (pts.getD j ⟨0, 0⟩).Y * prod) % p)
    refine ⟨w, hw, ⟨fun h => absurd h (by simp), fun _ => ?_⟩, ?_⟩
    · rcases eq_or_ne L [] with rfl | hL
      · rw [hwb.1 rfl]
        exact ⟨Int.emod_nonneg _ (by omega), Int.emod_lt_of_pos _ (by omega)⟩
      · exact hwb.2 hL
    · rw [hwc]
      have hPP : ((p.toNat : Nat) : Int) = p := Int.toNat_of_nonneg (by omega)
      have hc : (((acc + (pts.getD j ⟨0, 0⟩).Y * prod) % p : Int) : ZMod p.toNat) =
          (acc : ZMod p.toNat) +
            ((pts.getD j ⟨0, 0⟩).Y : ZMod p.toNat) * ((prod : Int) : ZMod p.toNat) := by
        rw [intCast_mod_P hPP]
        push_cast
        ring
      rw [hc, hprodc, List.map_cons, List.sum_cons]
      ring

theorem icSum_spec (p : Int) (hge : 2 ≤ p) (hp : p.toNat.Prime)
    (pts : List Point) (hne : pts ≠ [])
    (hinv : ∀ j m, j < pts.length → m < pts.length → m ≠ j →
      ((((pts.getD m ⟨0, 0⟩).X - (pts.getD j ⟨0, 0⟩).X : Int)) : ZMod p.toNat) ≠ 0) :
    ∃ w, icSum p pts = some w ∧ 0 ≤ w ∧ w < p ∧
      (w : ZMod p.toNat) = ∑ j ∈ Finset.range pts.length,
        ((pts.getD j ⟨0, 0⟩).Y : ZMod p.toNat) *
          ∏ m ∈ (Finset.range pts.length).erase j,
            (((pts.getD m ⟨0, 0⟩).X : ZMod p.toNat) *
              (((pts.getD m ⟨0, 0⟩).X : ZMod p.toNat) -
               ((pts.getD j ⟨0, 0⟩).X : ZMod p.toNat))⁻¹) := by
  obtain ⟨w, hw, hwb, hwc⟩ := icSum_foldl p hge hp pts hinv (List.range pts.length)
    (fun m hm => List.mem_range.mp hm) 0
  have hLne : List.range pts.length ≠ [] := by
    simp only [ne_eq, List.range_eq_nil, List.length_eq_zero]
    exact hne
  refine ⟨w, ?_, (hwb.2 hLne).1, (hwb.2 hLne).2, ?_⟩
  · rw [icSum]; exact hw
  · rw [hwc, sum_list_range]
    push_cast
    ring

theorem lagrange_eval_zero {F : Type} [Field F] (s : Finset Nat) (v : Nat → F)
    (hvinj : Set.InjOn v s) (f : Polynomial F) (hdeg : f.degree < s.card) :
    f.eval 0 = ∑ i ∈ s, f.eval (v i) * ∏ j ∈ s.erase i, (v j * (v j - v i)⁻¹) := by
  conv_lhs => rw [Lagrange.eq_interpolate hvinj hdeg]
  rw [Lagrange.interpolate_apply, Polynomial.eval_finset_sum]
  refine Finset.sum_congr rfl fun i hi => ?_
  rw [Polynomial.eval_mul, Polynomial.eval_C, Lagrange.basis, Polynomial.eval_prod]
  congr 1
  refine Finset.prod_congr rfl fun j hj => ?_
  rw [Lagrange.basisDivisor, Polynomial.eval_mul, Polynomial.eval_C, Polynomial.eval_sub,
    Polynomial.eval_X, Polynomial.eval_C, zero_sub,
    show (v i - v j) = -(v j - v i) by ring, inv_neg]
  ring

theorem getD_take {α : Type} (d : α) (l : List α) (k m : Nat) (hmk : m < k) :
    (l.take k).getD m d = l.getD m d := by
  rw [List.getD_eq_getD_get?, List.getD_eq_getD_get?, List.get?_eq_getElem?,
    List.get?_eq_getElem?, List.getElem?_take_of_lt hmk]

/-- `InterpolateConst` on at least `degree + 1` points (distinct `X` both as
integers and mod `p`) lying on the integer polynomial `f` of length at most
`degree + 1` returns `f`'s constant term reduced mod `p`. -/
theorem interpolateConst_eval (degree : Nat) (p : Int) (f : List Int) (pts : List Point)
    (hdeg : 1 ≤ degree) (hmr : millerRabin p = true) (hp : p.toNat.Prime)
    (hnd : (pts.map Point.X).Nodup)
    (hmod : ∀ i j, i < pts.length → j < pts.length → i ≠ j →
      (((pts.getD i ⟨0, 0⟩).X - (pts.getD j ⟨0, 0⟩).X : Int) : ZMod p.toNat) ≠ 0)
    (hlen : degree + 1 ≤ pts.length)
    (hflen : f.length ≤ degree + 1)
    (hcurve : ∀ pt ∈ pts,
      ((pt.Y : Int) : ZMod p.toNat) = ((hornerEval f pt.X : Int) : ZMod p.toNat)) :
    ∃ L0, InterpolateConst degree (some p) pts = .ok L0 ∧ 0 ≤ L0 ∧ L0 < p ∧
      ((L0 : Int) : ZMod p.toNat) = ((f.getD 0 0 : Int) : ZMod p.toNat) := by
  have hge : 2 ≤ p := millerRabin_two_le hmr
  haveI : Fact p.toNat.Prime := ⟨hp⟩
  set sel := pts.take (degree + 1) with hsel
  have hslen : sel.length = degree + 1 := by
    rw [hsel, List.length_take]
    omega
  have hselD : ∀ m, m < degree + 1 → sel.getD m ⟨0, 0⟩ = pts.getD m ⟨0, 0⟩ := by
    intro m hm
    rw [hsel]
    exact getD_take _ _ _ _ hm
  have hinv : ∀ j m, j < sel.length → m < sel.length → m ≠ j →
      (((sel.getD m ⟨0, 0⟩).X - (sel.getD j ⟨0, 0⟩).X : Int) : ZMod p.toNat) ≠ 0 := by
    intro j m hj hm hmj
    rw [hslen] at hj hm
    rw [hselD m hm, hselD j hj]
    exact hmod m j (by omega) (by omega) hmj
  have hne : sel ≠ [] := by
    intro h
    rw [h] at hslen
    simp at hslen
  obtain ⟨w, hw, hw0, hwlt, hwc⟩ := icSum_spec p hge hp sel hne hinv
  refine ⟨w, ?_, hw0, hwlt, ?_⟩
  · rw [InterpolateConst, if_neg (by omega : ¬ degree < 1),
      if_neg (by simp [goProbablyPrime, hmr])]
    simp only [uniquePoints_of_nodup pts hnd, Option.getD_some]
    rw [if_neg (by simp), if_neg (by omega : ¬ pts.length < degree + 1), ← hsel, hw]
  · rw [hwc]
    have hFeval : ∀ x : Int,
        Polynomial.eval ((x : Int) : ZMod p.toNat)
          (∑ i ∈ Finset.range f.length,
            Polynomial.C ((f.getD i 0 : Int) : ZMod p.toNat) * Polynomial.X ^ i) =
          ((hornerEval f x : Int) : ZMod p.toNat) := by
      intro x
      rw [hornerEval_cast, Polynomial.eval_finset_sum]
      exact Finset.sum_congr rfl fun i _ => by
        simp [Polynomial.eval_mul, Polynomial.eval_pow]
    have hFdeg : (∑ i ∈ Finset.range f.length,
        Polynomial.C ((f.getD i 0 : Int) : ZMod p.toNat) * Polynomial.X ^ i).degree <
          (((Finset.range sel.length).card : Nat) : WithBot Nat) := by
      rw [Finset.card_range, hslen]
      refine lt_of_le_of_lt (Polynomial.degree_sum_le _ _) ?_
      rw [Finset.sup_lt_iff (by exact_mod_cast WithBot.bot_lt_coe (degree + 1))]
      intro i hi
      refine lt_of_le_of_lt (Polynomial.degree_C_mul_X_pow_le _ _) ?_
      have hif : i < f.length := Finset.mem_range.mp hi
      exact_mod_cast (by omega : i < degree + 1)
    have hvinj : Set.InjOn (fun i => ((sel.getD i ⟨0, 0⟩).X : ZMod p.toNat))
        (Finset.range sel.length) := by
      intro i hi j hj heq
      simp only [Finset.coe_range, Set.mem_Iio] at hi hj
      by_contra hne'
      refine hinv j i hj hi hne' ?_
      push_cast
      simp only at heq
      rw [heq]
      ring
    have hlz := lagrange_eval_zero (Finset.range sel.length)
      (fun i => ((sel.getD i ⟨0, 0⟩).X : ZMod p.toNat)) hvinj _ hFdeg
    have h0 : Polynomial.eval (0 : ZMod p.toNat)
        (∑ i ∈ Finset.range f.length,
          Polynomial.C ((f.getD i 0 : Int) : ZMod p.toNat) * Polynomial.X ^ i) =
        ((f.getD 0 0 : Int) : ZMod p.toNat) := by
      have h := hFeval 0
      rw [hornerEval_zero] at h
      simpa using h
    rw [← h0, hlz]
    refine Finset.sum_congr rfl fun i hi => ?_
    have hie : i < sel.length := Finset.mem_range.mp hi
    have hmem : sel.getD i ⟨0, 0⟩ ∈ pts := by
      rw [List.getD_eq_getElem _ _ hie]
      exact List.take_subset _ _ (List.getElem_mem hie)
    simp only
    rw [hFeval, ← hcurve _ hmem]

/-! ### `Split` structure -/

theorem evalPolys_reduced (P : Int) (hmr : millerRabin P = true) :
    ∀ (polys : List Poly) (x : Int), x % P = x →
      evalPolys polys x P = some (x, polys.map (fun f => hornerEval f x % P)) := by
  intro polys
  induction polys with
  | nil => intro x _; rfl
  | cons f rest ih =>
    intro x hx
    show (match EvaluateMod f x (some P) with
      | (_, x', some y) =>
        match evalPolys rest x' P with
        | none => none
        | some r => some (r.1, y :: r.2)
      | (_, _, none) => none) = _
    rw [EvaluateMod_eq f x P hmr, hx]
    show (match evalPolys rest x P with
      | none => none
      | some r => some (r.1, (hornerEval f x % P) :: r.2)) = _
    rw [ih x hx]
    rfl

theorem evalPolys_eq (P : Int) (hmr : millerRabin P = true) (polys : List Poly) (x : Int)
    (hne : polys ≠ []) :
    evalPolys polys x P = some (x % P, polys.map (fun f => hornerEval f (x % P) % P)) := by
  match polys, hne with
  | f :: rest, _ =>
    have hred : (x % P) % P = x % P := Int.emod_emod_of_dvd _ dvd_rfl
    show (match EvaluateMod f x (some P) with
      | (_, x', some y) =>
        match evalPolys rest x' P with
        | none => none
        | some r => some (r.1, y :: r.2)
      | (_, _, none) => none) = _
    rw [EvaluateMod_eq f x P hmr]
    show (match evalPolys rest (x % P) P with
      | none => none
      | some r => some (r.1, (hornerEval f (x % P) % P) :: r.2)) = _
    rw [evalPolys_reduced P hmr rest (x % P) hred]
    rfl

theorem constructShare_eq (meta : ShareMeta) (polys : List Poly) (key : List Nat) (x : Int)
    (hmr : millerRabin meta.P = true) (hne : polys ≠ [])
    (hpk : meta.PublicKey = ed25519Public key) :
    constructShare meta polys key x = .ok (shareOf meta polys key x) := by
  show (match evalPolys polys x meta.P with
    | none => (Except.error GoErr.evalModError : Except GoErr Share)
    | some r =>
      let payload : SharePayload := ⟨meta, r.1, r.2⟩
      match payload.Sign key with
      | .error e => Except.error e
      | .ok sig => Except.ok ⟨payload, sig⟩) = _
  rw [evalPolys_eq meta.P hmr polys x hne]
  show (match SharePayload.Sign ⟨meta, x % meta.P,
      polys.map (fun f => hornerEval f (x % meta.P) % meta.P)⟩ key with
    | .error e => (Except.error e : Except GoErr Share)
    | .ok sig => Except.ok ⟨⟨meta, x % meta.P,
        polys.map (fun f => hornerEval f (x % meta.P) % meta.P)⟩, sig⟩) = _
  rw [SharePayload.Sign, if_neg (by simp [hpk])]
  rfl

theorem buildShares_eq (meta : ShareMeta) (polys : List Poly) (key : List Nat)
    (hmr : millerRabin meta.P = true) (hne : polys ≠ [])
    (hpk : meta.PublicKey = ed25519Public key) :
    ∀ xs : List Int, buildShares meta polys key xs = .ok (xs.map (shareOf meta polys key)) := by
  intro xs
  induction xs with
  | nil => rfl
  | cons x rest ih =>
    show (match constructShare meta polys key x with
      | .error e => (Except.error e : Except GoErr (List Share))
      | .ok sh =>
        match buildShares meta polys key rest with
        | .error e => Except.error e
        | .ok shs => Except.ok (sh :: shs)) = _
    rw [constructShare_eq meta polys key x hmr hne hpk, ih]
    rfl

theorem Split_eq (k n : Nat) (secret : List Nat) (tape : SplitTape)
    (hkn : k ≤ n) (hk1 : 1 ≤ k)
    (hmr : millerRabin tape.prime = true)
    (hbig : maxBlockValue DefaultBlockSize < tape.prime)
    (hcoeffs : tape.coeffs ≠ []) :
    Split k n secret tape =
      .ok ((tape.xs.take n).map
        (shareOf (splitMeta k secret tape) (splitPolys k secret tape) tape.priv)) := by
  rw [Split, if_neg (by omega : ¬ k > n), if_neg (by omega : ¬ k < 1),
    if_neg (by simp [hmr]), if_neg (by omega : ¬ tape.prime ≤ maxBlockValue DefaultBlockSize)]
  have hne : splitPolys k secret tape ≠ [] := by
    rw [splitPolys]
    simp only [ne_eq, List.map_eq_nil, List.zip_eq_nil_iff]
    push_neg
    refine ⟨?_, hcoeffs⟩
    exact blockBytes_ne_nil _ _ (by rw [DefaultBlockSize]; omega)
      (by simp [splitSecretBytes, marshalSecretFormat, jsonLitV])
  exact buildShares_eq (splitMeta k secret tape) (splitPolys k secret tape) tape.priv
    hmr hne rfl _

/-! ### `GroupShares` and `combineSharePoints` structure -/

theorem groupSharesAux_const (ident0 : List Nat) (g : Int) :
    ∀ (shares : List Share) (counter : Int) (mapping : List (List Nat × Int)),
      (∀ sh ∈ shares, keyIdent sh.Safe.Meta.PublicKey = ident0 ∧ shareGood sh = true) →
      mapping.find? (fun kv => kv.1 == ident0) = some (ident0, g) →
      groupSharesAux counter mapping shares =
        List.replicate shares.length ⟨g, false⟩ := by
  intro shares
  induction shares with
  | nil => intro counter mapping _ _; rfl
  | cons sh rest ih =>
    intro counter mapping hall hfind
    obtain ⟨hid, hgood⟩ := hall sh (by simp)
    show (match mapping.find? (fun kv => kv.1 == keyIdent sh.Safe.Meta.PublicKey) with
      | some kv =>
        ShareGrouping.mk kv.2 (!shareGood sh) :: groupSharesAux counter mapping rest
      | none =>
        ShareGrouping.mk (counter + 1) (!shareGood sh) ::
          groupSharesAux (counter + 1)
            (mapping ++ [(keyIdent sh.Safe.Meta.PublicKey, counter + 1)]) rest) = _
    rw [hid, hfind, hgood]
    show ShareGrouping.mk g false :: groupSharesAux counter mapping rest = _
    rw [ih counter mapping (fun a ha => hall a (by simp [ha])) hfind]
    rw [List.length_cons, List.replicate_succ]

theorem GroupShares_const (shares : List Share) (ident0 : List Nat)
    (hall : ∀ sh ∈ shares, keyIdent sh.Safe.Meta.PublicKey = ident0 ∧ shareGood sh = true) :
    GroupShares shares = List.replicate shares.length ⟨1, false⟩ := by
  match shares with
  | [] => rfl
  | sh :: rest =>
    obtain ⟨hid, hgood⟩ := hall sh (by simp)
    rw [GroupShares]
    show (match ([] : List (List Nat × Int)).find?
        (fun kv => kv.1 == keyIdent sh.Safe.Meta.PublicKey) with
      | some kv =>
        ShareGrouping.mk kv.2 (!shareGood sh) :: groupSharesAux 0 [] rest
      | none =>
        ShareGrouping.mk (0 + 1) (!shareGood sh) ::
          groupSharesAux (0 + 1) ([] ++ [(keyIdent sh.Safe.Meta.PublicKey, 0 + 1)]) rest) = _
    show ShareGrouping.mk (0 + 1) (!shareGood sh) ::
        groupSharesAux (0 + 1) [(keyIdent sh.Safe.Meta.PublicKey, 0 + 1)] rest = _
    rw [hid, hgood]
    rw [groupSharesAux_const ident0 (0 + 1) rest (0 + 1)
      [(ident0, 0 + 1)] (fun a ha => hall a (by simp [ha])) (by simp)]
    rw [List.length_cons, List.replicate_succ]
    norm_num

theorem cspLoop_ok (shares : List Share) (groupings : List ShareGrouping)
    (s0 : Share) (numBlocks : Nat) :
    ∀ (todo : List (Nat × Share)) (m : List (Int × Nat)),
      (∀ p ∈ todo, p.2.Safe.Meta = s0.Safe.Meta ∧ p.2.Safe.Ys.length = numBlocks ∧
        (groupings.getD p.1 ⟨0, false⟩).GroupIdx =
          (groupings.getD 0 ⟨0, false⟩).GroupIdx ∧
        (groupings.getD p.1 ⟨0, false⟩).Bad = false) →
      ((todo.map (fun p => p.2.Safe.X)).Nodup) →
      (∀ p ∈ todo, ∀ kv ∈ m, kv.1 ≠ p.2.Safe.X) →
      cspLoop shares groupings s0 numBlocks todo m =
        .ok (m ++ todo.map (fun p => (p.2.Safe.X, p.1))) := by
  intro todo
  induction todo with
  | nil => intro m _ _ _; simp [cspLoop]
  | cons p rest ih =>
    intro m hall hnd hdisj
    obtain ⟨idx, share⟩ := p
    obtain ⟨h1, h2, h3, h4⟩ := hall (idx, share) (by simp)
    simp only at h1 h2 h3 h4
    show (if share.Safe.Meta ≠ s0.Safe.Meta then Except.error GoErr.combineMismatchShares
      else if share.Safe.Ys.length ≠ numBlocks then Except.error GoErr.combineMismatchShares
      else if (groupings.getD idx ⟨0, false⟩).GroupIdx ≠
          (groupings.getD 0 ⟨0, false⟩).GroupIdx then
        Except.error GoErr.combineMismatchShares
      else if (groupings.getD idx ⟨0, false⟩).Bad then Except.error GoErr.combineBadSignature
      else
        match m.find? (fun kv => kv.1 == share.Safe.X) with
        | none =>
          cspLoop shares groupings s0 numBlocks rest (m ++ [(share.Safe.X, idx)])
        | some kv =>
          if share ≠ shares.getD kv.2 dummyShare then Except.error GoErr.combineMismatchShares
          else cspLoop shares groupings s0 numBlocks rest m) = _
    rw [if_neg (not_not_intro h1), if_neg (not_not_intro h2), if_neg (not_not_intro h3),
      if_neg (by rw [h4]; simp)]
    have hfind : m.find? (fun kv => kv.1 == share.Safe.X) = none := by
      rw [List.find?_eq_none]
      intro kv hkv
      simpa using hdisj (idx, share) (by simp) kv hkv
    rw [hfind]
    simp only [List.map_cons, List.nodup_cons] at hnd
    rw [ih (m ++ [(share.Safe.X, idx)]) (fun a ha => hall a (by simp [ha])) hnd.2 ?_]
    · simp
    · intro q hq kv hkv
      rcases List.mem_append.mp hkv with hkv | hkv
      · exact hdisj q (by simp [hq]) kv hkv
      · have hkq : kv = (share.Safe.X, idx) := by simpa using hkv
        subst hkq
        simp only
        intro hx
        exact hnd.1 (hx ▸ List.mem_map_of_mem (fun p => p.2.Safe.X) hq)

theorem shareGood_of_honest (sh : Share) (meta : ShareMeta)
    (hm : sh.Safe.Meta = meta) (hs : sh.Signature = ⟨meta.PublicKey, sh.Safe⟩)
    (hpk32 : meta.PublicKey.length = 32) : shareGood sh = true := by
  unfold shareGood
  rw [hs, SharePayload.Verify, if_neg (by rw [hm, hpk32]; simp)]
  simp [hm]

theorem combineSharePoints_eq (shares : List Share) (meta : ShareMeta) (numBlocks : Nat)
    (hne : shares ≠ [])
    (hmeta : ∀ sh ∈ shares, sh.Safe.Meta = meta)
    (hys : ∀ sh ∈ shares, sh.Safe.Ys.length = numBlocks)
    (hsig : ∀ sh ∈ shares, sh.Signature = ⟨meta.PublicKey, sh.Safe⟩)
    (hpk32 : meta.PublicKey.length = 32)
    (hnd : (shares.map (fun sh => sh.Safe.X)).Nodup)
    (hK : meta.K ≤ shares.length) :
    combineSharePoints shares =
      .ok (chunkedPointsOf numBlocks (shares.take meta.K), meta) := by
  have hlen : 0 < shares.length := List.length_pos.mpr hne
  have hs0 : shares.getD 0 dummyShare ∈ shares := by
    rw [List.getD_eq_getElem _ _ hlen]
    exact List.getElem_mem hlen
  have hgroups : GroupShares shares = List.replicate shares.length ⟨1, false⟩ :=
    GroupShares_const shares (keyIdent meta.PublicKey) (fun sh hsh =>
      ⟨by rw [hmeta sh hsh],
       shareGood_of_honest sh meta (hmeta sh hsh) (hsig sh hsh) hpk32⟩)
  have hrepD : ∀ i, i < shares.length →
      (List.replicate shares.length (ShareGrouping.mk 1 false)).getD i ⟨0, false⟩ =
        ⟨1, false⟩ := by
    intro i hi
    rw [List.getD_eq_getElem _ _ (by simpa using hi)]
    exact List.getElem_replicate _ _
  have hloop := cspLoop_ok shares (GroupShares shares) (shares.getD 0 dummyShare)
    numBlocks shares.enum [] ?_ ?_ ?_
  · have husable : (shares.enum.map (fun p => ((p.2 : Share).Safe.X, p.1))).map
        (fun kv => shares.getD kv.2 dummyShare) = shares := by
      rw [List.map_map]
      apply List.ext_getElem?
      intro i
      rw [List.getElem?_map, List.getElem?_enum]
      cases hsi : shares[i]? with
      | none => rfl
      | some sh =>
        obtain ⟨hi, hv⟩ := List.getElem?_eq_some.mp hsi
        show some (shares.getD i dummyShare) = some sh
        rw [List.getD_eq_getElem _ _ hi, hv]
    show (if shares.length < 1 then Except.error GoErr.combineTooFewShares
      else
        match cspLoop shares (GroupShares shares) (shares.getD 0 dummyShare)
            (shares.getD 0 dummyShare).Safe.Ys.length shares.enum [] with
        | Except.error e => Except.error e
        | Except.ok m =>
          if (m.map (fun kv => shares.getD kv.2 dummyShare)).length <
              ((m.map (fun kv => shares.getD kv.2 dummyShare)).getD 0
                dummyShare).Safe.Meta.K then
            Except.error GoErr.combineTooFewShares
          else
            Except.ok (chunkedPointsOf (shares.getD 0 dummyShare).Safe.Ys.length
              ((m.map (fun kv => shares.getD kv.2 dummyShare)).take
                ((m.map (fun kv => shares.getD kv.2 dummyShare)).getD 0
                  dummyShare).Safe.Meta.K),
              ((m.map (fun kv => shares.getD kv.2 dummyShare)).getD 0
                dummyShare).Safe.Meta)) = _
    rw [if_neg (by omega), hys _ hs0, hloop]
    show (if ((shares.enum.map (fun p => ((p.2 : Share).Safe.X, p.1))).map
          (fun kv => shares.getD kv.2 dummyShare)).length <
        (((shares.enum.map (fun p => ((p.2 : Share).Safe.X, p.1))).map
          (fun kv => shares.getD kv.2 dummyShare)).getD 0 dummyShare).Safe.Meta.K then
        Except.error GoErr.combineTooFewShares
      else
        Except.ok (chunkedPointsOf numBlocks
          (((shares.enum.map (fun p => ((p.2 : Share).Safe.X, p.1))).map
            (fun kv => shares.getD kv.2 dummyShare)).take
            (((shares.enum.map (fun p => ((p.2 : Share).Safe.X, p.1))).map
              (fun kv => shares.getD kv.2 dummyShare)).getD 0 dummyShare).Safe.Meta.K),
          (((shares.enum.map (fun p => ((p.2 : Share).Safe.X, p.1))).map
            (fun kv => shares.getD kv.2 dummyShare)).getD 0 dummyShare).Safe.Meta)) = _
    rw [husable, hmeta _ hs0, if_neg (by omega)]
  · intro p hp
    have hp2 : p.2 ∈ shares := by
      have := List.mem_enum_iff_getElem?.mp hp
      obtain ⟨hi, hv⟩ := List.getElem?_eq_some.mp this
      rw [← hv]
      exact List.getElem_mem hi
    have hp1 : p.1 < shares.length := List.fst_lt_of_mem_enum hp
    refine ⟨by rw [hmeta _ hp2, hmeta _ hs0], hys _ hp2, ?_, ?_⟩
    · rw [hgroups, hrepD p.1 hp1, hrepD 0 hlen]
    · rw [hgroups, hrepD p.1 hp1]
  · have : shares.enum.map (fun p => ((p.2 : Share).Safe.X)) =
        shares.map (fun sh => sh.Safe.X) := by
      have h1 := congrArg (List.map (fun sh : Share => sh.Safe.X)) (List.enum_map_snd shares)
      rw [List.map_map] at h1
      exact h1
    rw [this]
    exact hnd
  · intro p _ kv hkv
    simp at hkv

theorem combineSharePoints_toofew (shares : List Share) (meta : ShareMeta) (numBlocks : Nat)
    (hne : shares ≠ [])
    (hmeta : ∀ sh ∈ shares, sh.Safe.Meta = meta)
    (hys : ∀ sh ∈ shares, sh.Safe.Ys.length = numBlocks)
    (hsig : ∀ sh ∈ shares, sh.Signature = ⟨meta.PublicKey, sh.Safe⟩)
    (hpk32 : meta.PublicKey.length = 32)
    (hnd : (shares.map (fun sh => sh.Safe.X)).Nodup)
    (hK : shares.length < meta.K) :
    combineSharePoints shares = .error .combineTooFewShares := by
  have hlen : 0 < shares.length := List.length_pos.mpr hne
  have hs0 : shares.getD 0 dummyShare ∈ shares := by
    rw [List.getD_eq_getElem _ _ hlen]
    exact List.getElem_mem hlen
  have hgroups : GroupShares shares = List.replicate shares.length ⟨1, false⟩ :=
    GroupShares_const shares (keyIdent meta.PublicKey) (fun sh hsh =>
      ⟨by rw [hmeta sh hsh],
       shareGood_of_honest sh meta (hmeta sh hsh) (hsig sh hsh) hpk32⟩)
  have hrepD : ∀ i, i < shares.length →
      (List.replicate shares.length (ShareGrouping.mk 1 false)).getD i ⟨0, false⟩ =
        ⟨1, false⟩ := by
    intro i hi
    rw [List.getD_eq_getElem _ _ (by simpa using hi)]
    exact List.getElem_replicate _ _
  have hloop := cspLoop_ok shares (GroupShares shares) (shares.getD 0 dummyShare)
    numBlocks shares.enum [] ?_ ?_ ?_
  · have husable : (shares.enum.map (fun p => ((p.2 : Share).Safe.X, p.1))).map
        (fun kv => shares.getD kv.2 dummyShare) = shares := by
      rw [List.map_map]
      apply List.ext_getElem?
      intro i
      rw [List.getElem?_map, List.getElem?_enum]
      cases hsi : shares[i]? with
      | none => rfl
      | some sh =>
        obtain ⟨hi, hv⟩ := List.getElem?_eq_some.mp hsi
        show some (shares.getD i dummyShare) = some sh
        rw [List.getD_eq_getElem _ _ hi, hv]
    show (if shares.length < 1 then Except.error GoErr.combineTooFewShares
      else
        match cspLoop shares (GroupShares shares) (shares.getD 0 dummyShare)
            (shares.getD 0 dummyShare).Safe.Ys.length shares.enum [] with
        | Except.error e => Except.error e
        | Except.ok m =>
          if (m.map (fun kv => shares.getD kv.2 dummyShare)).length <
              ((m.map (fun kv => shares.getD kv.2 dummyShare)).getD 0
                dummyShare).Safe.Meta.K then
            Except.error GoErr.combineTooFewShares
          else
            Except.ok (chunkedPointsOf (shares.getD 0 dummyShare).Safe.Ys.length
              ((m.map (fun kv => shares.getD kv.2 dummyShare)).take
                ((m.map (fun kv => shares.getD kv.2 dummyShare)).getD 0
                  dummyShare).Safe.Meta.K),
              ((m.map (fun kv => shares.getD kv.2 dummyShare)).getD 0
                dummyShare).Safe.Meta)) = _
    rw [if_neg (by omega), hys _ hs0, hloop]
    show (if ((shares.enum.map (fun p => ((p.2 : Share).Safe.X, p.1))).map
          (fun kv => shares.getD kv.2 dummyShare)).length <
        (((shares.enum.map (fun p => ((p.2 : Share).Safe.X, p.1))).map
          (fun kv => shares.getD kv.2 dummyShare)).getD 0 dummyShare).Safe.Meta.K then
        Except.error GoErr.combineTooFewShares
      else
        Except.ok (chunkedPointsOf numBlocks
          (((shares.enum.map (fun p => ((p.2 : Share).Safe.X, p.1))).map
            (fun kv => shares.getD kv.2 dummyShare)).take
            (((shares.enum.map (fun p => ((p.2 : Share).Safe.X, p.1))).map
              (fun kv => shares.getD kv.2 dummyShare)).getD 0 dummyShare).Safe.Meta.K),
          (((shares.enum.map (fun p => ((p.2 : Share).Safe.X, p.1))).map
            (fun kv => shares.getD kv.2 dummyShare)).getD 0 dummyShare).Safe.Meta)) = _
    rw [husable, hmeta _ hs0, if_pos (by omega)]
  · intro p hp
    have hp2 : p.2 ∈ shares := by
      have := List.mem_enum_iff_getElem?.mp hp
      obtain ⟨hi, hv⟩ := List.getElem?_eq_some.mp this
      rw [← hv]
      exact List.getElem_mem hi
    have hp1 : p.1 < shares.length := List.fst_lt_of_mem_enum hp
    refine ⟨by rw [hmeta _ hp2, hmeta _ hs0], hys _ hp2, ?_, ?_⟩
    · rw [hgroups, hrepD p.1 hp1, hrepD 0 hlen]
    · rw [hgroups, hrepD p.1 hp1]
  · have : shares.enum.map (fun p => ((p.2 : Share).Safe.X)) =
        shares.map (fun sh => sh.Safe.X) := by
      have h1 := congrArg (List.map (fun sh : Share => sh.Safe.X)) (List.enum_map_snd shares)
      rw [List.map_map] at h1
      exact h1
    rw [this]
    exact hnd
  · intro p _ kv hkv
    simp at hkv

theorem getD_mem {α : Type} (l : List α) (i : Nat) (d : α) (h : i < l.length) :
    l.getD i d ∈ l := by
  rw [List.getD_eq_getElem _ _ h]
  exact List.getElem_mem h

theorem interpChunks_ok (meta : ShareMeta) (ptss : List (List Point)) (vals : List Int)
    (h : List.Forall₂
      (fun pts v => InterpolateConst (meta.K - 1) (some meta.P) pts = .ok v) ptss vals) :
    interpChunks meta ptss = .ok vals := by
  induction h with
  | nil => rfl
  | @cons pts v ptss vals h1 h2 ih =>
    show (match InterpolateConst (meta.K - 1) (some meta.P) pts with
      | .error e => (Except.error (GoErr.interp e) : Except GoErr (List Int))
      | .ok c =>
        match interpChunks meta ptss with
        | .error e => Except.error e
        | .ok cs => Except.ok (c :: cs)) = _
    rw [h1, ih]

/-- One block of the combine path: the `InterpolateConst` call on the block's
points recovers the block polynomial's constant term. -/
theorem chunk_interp (sel : List Share) (meta : ShareMeta) (f : List Int) (i : Nat)
    (hmr : millerRabin meta.P = true) (hp : meta.P.toNat.Prime) (hK2 : 2 ≤ meta.K)
    (hKlen : sel.length = meta.K)
    (hnd : (sel.map (fun sh => sh.Safe.X)).Nodup)
    (hxrange : ∀ sh ∈ sel, 0 ≤ sh.Safe.X ∧ sh.Safe.X < meta.P)
    (hflen : f.length ≤ meta.K)
    (hcurve : ∀ sh ∈ sel,
      ((sh.Safe.Ys.getD i 0 : Int) : ZMod meta.P.toNat) =
        ((hornerEval f sh.Safe.X : Int) : ZMod meta.P.toNat))
    (hconst : 0 ≤ f.getD 0 0 ∧ f.getD 0 0 < meta.P) :
    InterpolateConst (meta.K - 1) (some meta.P)
        (sel.map (fun sh => ⟨sh.Safe.X, sh.Safe.Ys.getD i 0⟩)) =
      .ok (f.getD 0 0) := by
  have hge : 2 ≤ meta.P := millerRabin_two_le hmr
  set pts := sel.map (fun sh => (⟨sh.Safe.X, sh.Safe.Ys.getD i 0⟩ : Point)) with hpts
  have hlenpts : pts.length = meta.K := by rw [hpts, List.length_map, hKlen]
  have hXmap : pts.map Point.X = sel.map (fun sh => sh.Safe.X) := by
    rw [hpts, List.map_map]
    rfl
  have hndX : (pts.map Point.X).Nodup := by rw [hXmap]; exact hnd
  have hgetD : ∀ j, j < pts.length → pts.getD j ⟨0, 0⟩ =
      ⟨(sel.getD j dummyShare).Safe.X, (sel.getD j dummyShare).Safe.Ys.getD i 0⟩ := by
    intro j hj
    rw [hpts] at hj ⊢
    have hjs : j < sel.length := by simpa using hj
    rw [List.getD_eq_getElem _ _ hj, List.getElem_map,
      List.getD_eq_getElem sel dummyShare hjs]
  have hmod : ∀ a b, a < pts.length → b < pts.length → a ≠ b →
      (((pts.getD a ⟨0, 0⟩).X - (pts.getD b ⟨0, 0⟩).X : Int) : ZMod meta.P.toNat) ≠ 0 := by
    intro a b ha hb hab hzero
    have hxa := hxrange _ (getD_mem sel a dummyShare (by rw [hKlen]; rw [hlenpts] at ha; exact ha))
    have hxb := hxrange _ (getD_mem sel b dummyShare (by rw [hKlen]; rw [hlenpts] at hb; exact hb))
    have hcast : (((pts.getD a ⟨0, 0⟩).X : Int) : ZMod meta.P.toNat) =
        (((pts.getD b ⟨0, 0⟩).X : Int) : ZMod meta.P.toNat) := by
      have h := sub_eq_zero.mp (by push_cast at hzero ⊢; exact not_not.mp (fun hn => hn hzero))
      exact h
    have heq : (pts.getD a ⟨0, 0⟩).X = (pts.getD b ⟨0, 0⟩).X := by
      refine eq_of_cast_eq hge ?_ ?_ ?_ ?_ hcast
      · rw [hgetD a ha]; exact hxa.1
      · rw [hgetD a ha]; exact hxa.2
      · rw [hgetD b hb]; exact hxb.1
      · rw [hgetD b hb]; exact hxb.2
    have hmap : ∀ j (hj : j < pts.length),
        (pts.map Point.X).get ⟨j, by simpa using hj⟩ = (pts.getD j ⟨0, 0⟩).X := by
      intro j hj
      rw [List.get_eq_getElem, List.getElem_map, List.getD_eq_getElem _ _ hj]
    have hfin : (⟨a, by simpa using ha⟩ : Fin (pts.map Point.X).length) =
        ⟨b, by simpa using hb⟩ :=
      hndX.get_inj_iff.mp (by rw [hmap a ha, hmap b hb]; exact heq)
    exact hab (by simpa using congrArg Fin.val hfin)
  have hcurve2 : ∀ pt ∈ pts,
      ((pt.Y : Int) : ZMod meta.P.toNat) =
        ((hornerEval f pt.X : Int) : ZMod meta.P.toNat) := by
    intro pt hpt
    rw [hpts] at hpt
    obtain ⟨sh, hsh, rfl⟩ := List.mem_map.mp hpt
    exact hcurve sh hsh
  obtain ⟨L0, hIC, h0, hlt, hc⟩ := interpolateConst_eval (meta.K - 1) meta.P f pts
    (by omega) hmr hp hndX hmod (by omega) (by omega) hcurve2
  have hL0 : L0 = f.getD 0 0 := eq_of_cast_eq hge h0 hlt hconst.1 hconst.2 hc
  rw [← hL0]
  exact hIC

/-- The newer `Combine` on any list of at least `K` honestly-signed shares
with common metadata, distinct in-range `x` values, and per-block values on
the integer polynomials `polys` mod `P`: the interpolation succeeds and the
result is `combineChunks` applied to the polynomials' constant terms. -/
theorem Combine_eq_of_onCurve (sel : List Share) (meta : ShareMeta) (polys : List Poly)
    (hmr : millerRabin meta.P = true) (hp : meta.P.toNat.Prime) (hK2 : 2 ≤ meta.K)
    (hKlen : meta.K ≤ sel.length)
    (hmeta : ∀ sh ∈ sel, sh.Safe.Meta = meta)
    (hys : ∀ sh ∈ sel, sh.Safe.Ys.length = polys.length)
    (hsig : ∀ sh ∈ sel, sh.Signature = ⟨meta.PublicKey, sh.Safe⟩)
    (hpk32 : meta.PublicKey.length = 32)
    (hnd : (sel.map (fun sh => sh.Safe.X)).Nodup)
    (hxrange : ∀ sh ∈ sel, 0 ≤ sh.Safe.X ∧ sh.Safe.X < meta.P)
    (hflen : ∀ f ∈ polys, (f : List Int).length ≤ meta.K)
    (hcurve : ∀ sh ∈ sel, ∀ i, i < polys.length →
      ((sh.Safe.Ys.getD i 0 : Int) : ZMod meta.P.toNat) =
        ((hornerEval (polys.getD i []) sh.Safe.X : Int) : ZMod meta.P.toNat))
    (hconst : ∀ f ∈ polys,
      0 ≤ (f : List Int).getD 0 0 ∧ (f : List Int).getD 0 0 < meta.P) :
    Combine sel =
      (match combineChunks meta (polys.map (fun f => (f : List Int).getD 0 0)) with
       | .error e => ([], some e)
       | .ok s => (s.Data, none)) := by
  have hne : sel ≠ [] := by
    intro h
    rw [h] at hKlen
    simp at hKlen
    omega
  have htake : (sel.take meta.K).length = meta.K := by
    rw [List.length_take]
    omega
  have htsub : ∀ sh ∈ sel.take meta.K, sh ∈ sel := fun sh hsh => List.take_subset _ _ hsh
  have hinterp : interpChunks meta (chunkedPointsOf polys.length (sel.take meta.K)) =
      .ok (polys.map (fun f => (f : List Int).getD 0 0)) := by
    apply interpChunks_ok
    rw [List.forall₂_iff_get]
    constructor
    · simp only [chunkedPointsOf]
      rw [List.length_map, List.length_map, List.length_range]
    · intro j h1 h2
      have hjp : j < polys.length := by simpa using h2
      have hget1 : (chunkedPointsOf polys.length (sel.take meta.K)).get ⟨j, h1⟩ =
          (sel.take meta.K).map
            (fun sh => (⟨sh.Safe.X, sh.Safe.Ys.getD j 0⟩ : Point)) := by
        simp only [chunkedPointsOf]
        rw [List.get_eq_getElem, List.getElem_map, List.getElem_range]
      have hget2 : (polys.map (fun f => (f : List Int).getD 0 0)).get ⟨j, h2⟩ =
          (polys.getD j []).getD 0 0 := by
        rw [List.get_eq_getElem, List.getElem_map, List.getD_eq_getElem _ _ hjp]
      rw [hget1, hget2]
      refine chunk_interp (sel.take meta.K) meta (polys.getD j []) j hmr hp hK2 htake
        ?_ ?_ ?_ ?_ ?_
      · exact ((List.take_sublist _ _).map _).nodup hnd
      · exact fun sh hsh => hxrange sh (htsub sh hsh)
      · exact hflen _ (getD_mem polys j [] hjp)
      · exact fun sh hsh => hcurve sh (htsub sh hsh) j hjp
      · exact hconst _ (getD_mem polys j [] hjp)
  rw [Combine, combineSharePoints_eq sel meta polys.length hne hmeta hys hsig hpk32 hnd hKlen]
  show (match interpChunks meta (chunkedPointsOf polys.length (sel.take meta.K)) with
    | Except.error e => (([] : List Nat), some e)
    | Except.ok chunks =>
      match combineChunks meta chunks with
      | Except.error e => ([], some e)
      | Except.ok internalSecret => (internalSecret.Data, none)) = _
  rw [hinterp]

theorem SetConst_length (a : Int) (l : Poly) : (SetConst a l : List Int).length = l.length := by
  cases l <;> rfl

theorem blockBytesAux_facts (size : Nat) (hsize : 1 ≤ size) :
    ∀ (n : Nat) (data : List Nat), data.length ≤ n →
      ∀ b ∈ blockBytesAux n data size, b.length ≤ size ∧ ∀ x ∈ b, x ∈ data := by
  intro n
  induction n with
  | zero =>
    intro data _ b hb
    simp [blockBytesAux] at hb
  | succ n ih =>
    intro data hlen b hb
    rw [blockBytesAux] at hb
    by_cases hd : data = []
    · rw [if_pos hd] at hb
      simp at hb
    · rw [if_neg hd] at hb
      rcases List.mem_cons.mp hb with hb | hb
      · subst hb
        exact ⟨List.length_take_le _ _, fun x hx => List.take_subset _ _ hx⟩
      · have hdl : (data.drop size).length ≤ n := by
          rw [List.length_drop]
          have : 0 < data.length := List.length_pos.mpr hd
          omega
        obtain ⟨hb1, hb2⟩ := ih (data.drop size) hdl b hb
        exact ⟨hb1, fun x hx => List.drop_subset _ _ (hb2 x hx)⟩

theorem blockBytes_facts (data : List Nat) (size : Nat) (hsize : 1 ≤ size) :
    ∀ b ∈ blockBytes data size, b.length ≤ size ∧ ∀ x ∈ b, x ∈ data :=
  blockBytesAux_facts size hsize data.length data le_rfl

theorem zip_constants (k : Nat) :
    ∀ (blocks : List (List Nat)) (coeffs : List (List Int)),
      blocks.length ≤ coeffs.length → (∀ cs ∈ coeffs, cs ≠ []) →
      ((blocks.zip coeffs).map
        (fun bc => (SetConst (Int.ofNat (bytesToNat bc.1))
          (RandomPolynomial (k - 1) bc.2) : List Int).getD 0 0)) =
        blocks.map (fun b => Int.ofNat (bytesToNat b)) := by
  intro blocks
  induction blocks with
  | nil => intro coeffs _ _; rfl
  | cons b rest ih =>
    intro coeffs hlen hne
    match coeffs with
    | [] => simp at hlen
    | c :: cs =>
      rw [List.zip_cons_cons, List.map_cons, List.map_cons,
        ih cs (by simpa using hlen) (fun a ha => hne a (by simp [ha]))]
      congr 1
      have hc : c ≠ [] := hne c (by simp)
      match c, hc with
      | c0 :: ctail, _ =>
        show (SetConst (Int.ofNat (bytesToNat b))
          (RandomPolynomial (k - 1) (c0 :: ctail)) : List Int).getD 0 0 = _
        rw [RandomPolynomial, List.take_succ_cons]
        rfl

theorem combineChunks_split (k : Nat) (secret : List Nat) (tape : SplitTape)
    (hsec : ∀ b ∈ secret, b < 256) (hpriv : ∀ b ∈ tape.priv, b < 256)
    (hcne : ∀ cs ∈ tape.coeffs, cs ≠ [])
    (hclen : (blockBytes (splitSecretBytes secret tape) DefaultBlockSize).length ≤
      tape.coeffs.length) :
    combineChunks (splitMeta k secret tape)
        ((splitPolys k secret tape).map (fun f => (f : List Int).getD 0 0)) =
      .ok ⟨schemaVersion, tape.priv, secret⟩ := by
  have hchunks : (splitPolys k secret tape).map (fun f => (f : List Int).getD 0 0) =
      (blockBytes (splitSecretBytes secret tape) DefaultBlockSize).map
        (fun b => Int.ofNat (bytesToNat b)) := by
    rw [splitPolys, List.map_map]
    exact zip_constants k _ _ hclen hcne
  have hbytes : ∀ x ∈ splitSecretBytes secret tape, 0 < x ∧ x < 256 := by
    intro x hx
    have := marshalSecretFormat_range ⟨schemaVersion, tape.priv, secret⟩ hpriv hsec x hx
    omega
  have hne : splitSecretBytes secret tape ≠ [] := by
    simp [splitSecretBytes, marshalSecretFormat, jsonLitV]
  have hrb := rebuildChunks_blocks DefaultBlockSize (by rw [DefaultBlockSize]; omega)
    (splitSecretBytes secret tape).length (splitSecretBytes secret tape) le_rfl
    hbytes hne (splitSecretBytes secret tape).length rfl
  rw [combineChunks, hchunks]
  simp only [splitMeta]
  rw [hrb, if_neg (by simp)]
  rw [show splitSecretBytes secret tape =
    marshalSecretFormat ⟨schemaVersion, tape.priv, secret⟩ from rfl]
  rw [parseSecretFormat_marshal ⟨schemaVersion, tape.priv, secret⟩ hpriv hsec]
  simp

/-- Constant term of `SetConst`. -/
theorem SetConst_getD (a : Int) (l : Poly) :
    (SetConst a l : List Int).getD 0 0 = if l = [] then 0 else a := by
  cases l with
  | nil => rfl
  | cons x t => rw [if_neg (by simp)]; rfl

/-- C1 (amended): for `2 ≤ k ≤ n`, a valid tape (prime accepted by the
code's test and above the block bound, 64-byte key, a coefficient list per
block, `x` draws with pairwise-distinct residues), `Split k n s` succeeds
and `Combine` of any `k`-share subset of its output returns exactly `s` with
no error.  (The original claim's `k = 1` case fails — see the
counterexample — and colliding `x` draws are possible, hence the
distinctness hypothesis.) -/
theorem split_sublist_combine (k n : Nat) (secret : List Nat) (tape : SplitTape)
    (shares sel : List Share)
    (hk2 : 2 ≤ k) (hkn : k ≤ n)
    (hmr : millerRabin tape.prime = true) (hp : tape.prime.toNat.Prime)
    (hbig : maxBlockValue DefaultBlockSize < tape.prime)
    (hpriv64 : tape.priv.length = 64)
    (hprivB : ∀ b ∈ tape.priv, b < 256) (hsecB : ∀ b ∈ secret, b < 256)
    (hcne : ∀ cs ∈ tape.coeffs, cs ≠ [])
    (hclen : (blockBytes (splitSecretBytes secret tape) DefaultBlockSize).length ≤
      tape.coeffs.length)
    (hxnd : ((tape.xs.take n).map (fun x => x % tape.prime)).Nodup)
    (hsplit : Split k n secret tape = .ok shares)
    (hsel : sel.Sublist shares) (hlen : sel.length = k) :
    Combine sel = (secret, none) := by
  have hcoeffs : tape.coeffs ≠ [] := by
    have hbne : blockBytes (splitSecretBytes secret tape) DefaultBlockSize ≠ [] :=
      blockBytes_ne_nil _ _ (by rw [DefaultBlockSize]; omega)
        (by simp [splitSecretBytes, marshalSecretFormat, jsonLitV])
    have : 0 < (blockBytes (splitSecretBytes secret tape) DefaultBlockSize).length :=
      List.length_pos.mpr hbne
    exact List.length_pos.mp (by omega)
  have hS := Split_eq k n secret tape hkn (by omega) hmr hbig hcoeffs
  rw [hsplit] at hS
  have hshares := Except.ok.inj hS
  subst hshares
  obtain ⟨xs0, hxsub, rfl⟩ := List.sublist_map_iff.mp hsel
  have hP2 : 2 ≤ tape.prime := millerRabin_two_le hmr
  have hsecBytes : ∀ x ∈ splitSecretBytes secret tape, x < 256 := by
    intro x hx
    have := marshalSecretFormat_range ⟨schemaVersion, tape.priv, secret⟩ hprivB hsecB x hx
    omega
  have hflen : ∀ f ∈ splitPolys k secret tape, (f : List Int).length ≤ k := by
    intro f hf
    rw [splitPolys] at hf
    obtain ⟨bc, _, rfl⟩ := List.mem_map.mp hf
    rw [SetConst_length, RandomPolynomial]
    have := List.length_take_le (k - 1 + 1) bc.2
    omega
  have hconst : ∀ f ∈ splitPolys k secret tape,
      0 ≤ (f : List Int).getD 0 0 ∧ (f : List Int).getD 0 0 < tape.prime := by
    intro f hf
    rw [splitPolys] at hf
    obtain ⟨bc, hbc, rfl⟩ := List.mem_map.mp hf
    rw [SetConst_getD]
    by_cases hrp : RandomPolynomial (k - 1) bc.2 = ([] : List Int)
    · rw [if_pos hrp]
      omega
    · rw [if_neg hrp]
      have hb1 : bc.1 ∈ blockBytes (splitSecretBytes secret tape) DefaultBlockSize :=
        (List.of_mem_zip hbc).1
      obtain ⟨hbl, hbm⟩ := blockBytes_facts _ _ (by rw [DefaultBlockSize]; omega) bc.1 hb1
      have hlt : bytesToNat bc.1 < 256 ^ bc.1.length :=
        bytesToNat_lt bc.1 (fun x hx => hsecBytes x (hbm x hx))
      have hle : (256 : Nat) ^ bc.1.length ≤ 256 ^ DefaultBlockSize :=
        Nat.pow_le_pow_right (by omega) hbl
    
      have hmax : (maxBlockValue DefaultBlockSize : Int) = 2 ^ 128 - 1 := by
        rw [maxBlockValue, DefaultBlockSize]
    
      have h256 : (256 : Nat) ^ DefaultBlockSize = 2 ^ 128 := by
        rw [DefaultBlockSize]
        norm_num
      constructor
      · exact Int.ofNat_nonneg _
      · have : bytesToNat bc.1 < 2 ^ 128 := by omega
        have hcast : (Int.ofNat (bytesToNat bc.1)) < (2 : Int) ^ 128 := by
          rw [Int.ofNat_eq_natCast]
          exact_mod_cast this
        omega
  refine Eq.trans (Combine_eq_of_onCurve (xs0.map
    (shareOf (splitMeta k secret tape) (splitPolys k secret tape) tape.priv))
    (splitMeta k secret tape) (splitPolys k secret tape)
    hmr hp hk2 (by
      show k ≤ (xs0.map
        (shareOf (splitMeta k secret tape) (splitPolys k secret tape) tape.priv)).length
      rw [List.length_map] at hlen ⊢
      omega)
    (fun sh hsh => by obtain ⟨x, _, rfl⟩ := List.mem_map.mp hsh; rfl)
    (fun sh hsh => by
      obtain ⟨x, _, rfl⟩ := List.mem_map.mp hsh
      rw [shareOf]
      exact List.length_map _ _)
    (fun sh hsh => by obtain ⟨x, _, rfl⟩ := List.mem_map.mp hsh; rfl)
    (by rw [splitMeta]; show (ed25519Public tape.priv).length = 32
        rw [ed25519Public, List.length_drop, hpriv64])
    ?_ ?_ hflen ?_ hconst) ?_
  · rw [List.map_map]
    have hxnd0 : (xs0.map (fun x => x % tape.prime)).Nodup :=
      ((hxsub.map (fun x => x % tape.prime)).nodup hxnd)
    exact hxnd0
  · intro sh hsh
    obtain ⟨x, _, rfl⟩ := List.mem_map.mp hsh
    exact ⟨Int.emod_nonneg x (by show tape.prime ≠ 0; omega),
      Int.emod_lt_of_pos x (by show (0 : Int) < tape.prime; omega)⟩
  · intro sh hsh i hi
    obtain ⟨x, _, rfl⟩ := List.mem_map.mp hsh
    show (((((splitPolys k secret tape).map
        (fun f => hornerEval f (x % tape.prime) % tape.prime)).getD i 0 : Int)) :
          ZMod tape.prime.toNat) = _
    rw [List.getD_eq_getElem _ _ (by simpa using hi), List.getElem_map,
      List.getD_eq_getElem _ _ hi]
    have hPP : ((tape.prime.toNat : Nat) : Int) = tape.prime :=
      Int.toNat_of_nonneg (by omega)
    rw [intCast_mod_P hPP]
    rfl
  · rw [combineChunks_split k secret tape hsecB hprivB hcne hclen]

/-- C2: `Combine` applied to any subset of a successful `Split k n s` output
containing fewer than `k` shares (including the empty subset) returns
`ErrCombineTooFewShares` and no secret. -/
theorem split_sublist_combine_toofew (k n : Nat) (secret : List Nat) (tape : SplitTape)
    (shares sel : List Share)
    (hk1 : 1 ≤ k) (hkn : k ≤ n)
    (hmr : millerRabin tape.prime = true)
    (hbig : maxBlockValue DefaultBlockSize < tape.prime)
    (hpriv64 : tape.priv.length = 64)
    (hcoeffs : tape.coeffs ≠ [])
    (hxnd : ((tape.xs.take n).map (fun x => x % tape.prime)).Nodup)
    (hsplit : Split k n secret tape = .ok shares)
    (hsel : sel.Sublist shares) (hlen : sel.length < k) :
    Combine sel = ([], some .combineTooFewShares) := by
  have hS := Split_eq k n secret tape hkn hk1 hmr hbig hcoeffs
  rw [hsplit] at hS
  have hshares := Except.ok.inj hS
  subst hshares
  obtain ⟨xs0, hxsub, rfl⟩ := List.sublist_map_iff.mp hsel
  by_cases hxe : xs0 = []
  · subst hxe
    rfl
  · have hnemap : xs0.map (shareOf (splitMeta k secret tape)
        (splitPolys k secret tape) tape.priv) ≠ [] := by
      simpa using hxe
    have hcsp := combineSharePoints_toofew
      (xs0.map (shareOf (splitMeta k secret tape) (splitPolys k secret tape) tape.priv))
      (splitMeta k secret tape) (splitPolys k secret tape).length hnemap
      (fun sh hsh => by obtain ⟨x, _, rfl⟩ := List.mem_map.mp hsh; rfl)
      (fun sh hsh => by
        obtain ⟨x, _, rfl⟩ := List.mem_map.mp hsh
        rw [shareOf]
        exact List.length_map _ _)
      (fun sh hsh => by obtain ⟨x, _, rfl⟩ := List.mem_map.mp hsh; rfl)
      (by rw [splitMeta]
          show (ed25519Public tape.priv).length = 32
          rw [ed25519Public, List.length_drop, hpriv64])
      (by rw [List.map_map]
          exact (hxsub.map (fun x => x % tape.prime)).nodup hxnd)
      hlen
    rw [Combine, hcsp]

/-! ### `uniquePoints`: the inconsistency flag and the unique count -/

theorem uniquePointsAux_flag :
    ∀ (pts seen : List Point), ((seen.map Point.X).Nodup) →
      ((uniquePointsAux seen pts).2 = true ↔
        (∃ a ∈ seen, ∃ b ∈ pts, a.X = b.X ∧ a.Y ≠ b.Y) ∨ ¬ PointsConsistent pts) := by
  intro pts
  induction pts with
  | nil =>
    intro seen _
    simp [uniquePointsAux, PointsConsistent]
  | cons pt rest ih =>
    intro seen hnd
    rw [uniquePointsAux]
    cases hfind : seen.find? (fun q => q.X == pt.X) with
    | none =>
      have hnotin : ∀ a ∈ seen, a.X ≠ pt.X := by
        intro a ha
        have := List.find?_eq_none.mp hfind a ha
        simpa using this
      have hnd2 : ((seen ++ [pt]).map Point.X).Nodup := by
        rw [List.map_append, List.nodup_append]
        refine ⟨hnd, by simp, ?_⟩
        intro x hx hy
        simp only [List.map_cons, List.map_nil, List.mem_singleton] at hy
        obtain ⟨a, ha, hax⟩ := List.mem_map.mp hx
        exact hnotin a ha (by rw [hax, hy])
      simp only
      rw [ih (seen ++ [pt]) hnd2]
      constructor
      · rintro (⟨a, ha, b, hb, hab⟩ | hcons)
        · rcases List.mem_append.mp ha with ha | ha
          · exact Or.inl ⟨a, ha, b, List.mem_cons_of_mem pt hb, hab⟩
          · have hapt : a = pt := by simpa using ha
            subst hapt
            refine Or.inr (fun hcon => hab.2 ?_)
            exact hcon a (by simp) b (by simp [hb]) hab.1
        · refine Or.inr (fun hcon => hcons ?_)
          intro a ha b hb hab
          exact hcon a (by simp [ha]) b (by simp [hb]) hab
      · rintro (⟨a, ha, b, hb, hab⟩ | hcons)
        · rcases List.mem_cons.mp hb with rfl | hb
          · exact absurd hab.1 (hnotin a ha)
          · exact Or.inl ⟨a, List.mem_append_left _ ha, b, hb, hab⟩
        · by_cases hrest : PointsConsistent rest
          · have : ∃ b ∈ rest, pt.X = b.X ∧ pt.Y ≠ b.Y := by
              by_contra hno
              push_neg at hno
              refine hcons ?_
              intro a ha b hb hab
              rcases List.mem_cons.mp ha with ha1 | ha1
              · rcases List.mem_cons.mp hb with hb1 | hb1
                · rw [ha1, hb1]
                · rw [ha1]
                  exact hno b hb1 (by rw [← ha1]; exact hab)
              · rcases List.mem_cons.mp hb with hb1 | hb1
                · rw [hb1]
                  exact (hno a ha1 (by rw [← hb1]; exact hab.symm)).symm
                · exact hrest a ha1 b hb1 hab
            obtain ⟨b, hb, hxb, hyb⟩ := this
            exact Or.inl ⟨pt, List.mem_append_right _ (by simp), b, hb, hxb, hyb⟩
          · exact Or.inr hrest
    | some q =>
      have hq := List.find?_some hfind
      have hqmem := List.mem_of_find?_eq_some hfind
      have hqx : q.X = pt.X := by simpa using hq
      simp only
      rw [Bool.or_eq_true, ih seen hnd]
      have hinj := List.inj_on_of_nodup_map hnd
      constructor
      · rintro ((⟨a, ha, b, hb, hab⟩ | hcons) | hqy)
        · exact Or.inl ⟨a, ha, b, List.mem_cons_of_mem pt hb, hab⟩
        · refine Or.inr (fun hcon => hcons ?_)
          intro a ha b hb hab
          exact hcon a (by simp [ha]) b (by simp [hb]) hab
        · exact Or.inl ⟨q, hqmem, pt, by simp, hqx, by simpa using hqy⟩
      · rintro (⟨a, ha, b, hb, hab⟩ | hcons)
        · rcases List.mem_cons.mp hb with rfl | hb
          · have haq : a = q := hinj ha hqmem (hab.1.trans hqx.symm)
            subst haq
            exact Or.inr (by simpa using hab.2)
          · exact Or.inl (Or.inl ⟨a, ha, b, hb, hab⟩)
        · by_cases hrest : PointsConsistent rest
          · have : ∃ b ∈ rest, pt.X = b.X ∧ pt.Y ≠ b.Y := by
              by_contra hno
              push_neg at hno
              refine hcons ?_
              intro a ha b hb hab
              rcases List.mem_cons.mp ha with ha1 | ha1
              · rcases List.mem_cons.mp hb with hb1 | hb1
                · rw [ha1, hb1]
                · rw [ha1]
                  exact hno b hb1 (by rw [← ha1]; exact hab)
              · rcases List.mem_cons.mp hb with hb1 | hb1
                · rw [hb1]
                  exact (hno a ha1 (by rw [← hb1]; exact hab.symm)).symm
                · exact hrest a ha1 b hb1 hab
            obtain ⟨b, hb, hxb, hyb⟩ := this
            by_cases hqy : q.Y = pt.Y
            · exact Or.inl (Or.inl ⟨q, hqmem, b, hb, hqx.trans hxb, by
                rw [hqy]; exact hyb⟩)
            · exact Or.inr (by simpa using hqy)
          · exact Or.inl (Or.inr hrest)

theorem uniquePoints_flag (pts : List Point) :
    (uniquePoints pts).2 = true ↔ ¬ PointsConsistent pts := by
  rw [uniquePoints, uniquePointsAux_flag pts [] (by simp)]
  simp

theorem uniquePointsAux_unique :
    ∀ (pts seen : List Point),
      (((uniquePointsAux seen pts).1.map Point.X).Nodup ∧
       (∀ q ∈ (uniquePointsAux seen pts).1, q ∈ pts ∧ ¬ q.X ∈ seen.map Point.X) ∧
       (∀ b ∈ pts, b.X ∈ seen.map Point.X ∨
         b.X ∈ (uniquePointsAux seen pts).1.map Point.X)) := by
  intro pts
  induction pts with
  | nil =>
    intro seen
    refine ⟨by simp [uniquePointsAux], by simp [uniquePointsAux], by simp⟩
  | cons pt rest ih =>
    intro seen
    cases hfind : seen.find? (fun q => q.X == pt.X) with
    | none =>
      have hred : uniquePointsAux seen (pt :: rest) =
          (pt :: (uniquePointsAux (seen ++ [pt]) rest).1,
            (uniquePointsAux (seen ++ [pt]) rest).2) := by
        rw [uniquePointsAux, hfind]
      have hnotin : ¬ pt.X ∈ seen.map Point.X := by
        intro hx
        obtain ⟨a, ha, hax⟩ := List.mem_map.mp hx
        have := List.find?_eq_none.mp hfind a ha
        simp only [beq_iff_eq] at this
        exact this hax
      obtain ⟨ih1, ih2, ih3⟩ := ih (seen ++ [pt])
      rw [hred]
      refine ⟨?_, ?_, ?_⟩
      · simp only [List.map_cons, List.nodup_cons]
        refine ⟨?_, ih1⟩
        intro hmem
        obtain ⟨q, hq, hqx⟩ := List.mem_map.mp hmem
        have := (ih2 q hq).2
        rw [List.map_append] at this
        exact this (List.mem_append_right _ (by simp [hqx.symm]))
      · intro q hq
        rcases List.mem_cons.mp hq with rfl | hq
        · exact ⟨by simp, hnotin⟩
        · obtain ⟨hq1, hq2⟩ := ih2 q hq
          refine ⟨List.mem_cons_of_mem pt hq1, fun hmem => hq2 ?_⟩
          rw [List.map_append]
          exact List.mem_append_left _ hmem
      · intro b hb
        rcases List.mem_cons.mp hb with rfl | hb
        · exact Or.inr (by simp)
        · rcases ih3 b hb with hmem | hmem
          · rw [List.map_append] at hmem
            rcases List.mem_append.mp hmem with hmem | hmem
            · exact Or.inl hmem
            · refine Or.inr ?_
              simp only [List.map_cons, List.map_nil, List.mem_singleton] at hmem
              simp [hmem]
          · exact Or.inr (by simp [hmem])
    | some q =>
      have hred : uniquePointsAux seen (pt :: rest) =
          ((uniquePointsAux seen rest).1,
            (uniquePointsAux seen rest).2 || decide (q.Y ≠ pt.Y)) := by
        rw [uniquePointsAux, hfind]
      have hqmem := List.mem_of_find?_eq_some hfind
      have hqx : q.X = pt.X := by simpa using List.find?_some hfind
      obtain ⟨ih1, ih2, ih3⟩ := ih seen
      rw [hred]
      refine ⟨ih1, ?_, ?_⟩
      · intro p hp
        exact ⟨List.mem_cons_of_mem pt (ih2 p hp).1, (ih2 p hp).2⟩
      · intro b hb
        rcases List.mem_cons.mp hb with rfl | hb
        · exact Or.inl (by rw [← hqx]; exact List.mem_map_of_mem Point.X hqmem)
        · exact ih3 b hb

theorem uniquePoints_length (pts : List Point) :
    (uniquePoints pts).1.length = (pts.map Point.X).toFinset.card := by
  obtain ⟨h1, h2, h3⟩ := uniquePointsAux_unique pts []
  rw [uniquePoints]
  have hset : ((uniquePointsAux [] pts).1.map Point.X).toFinset =
      (pts.map Point.X).toFinset := by
    ext x
    simp only [List.mem_toFinset]
    constructor
    · intro hx
      obtain ⟨p, hp, rfl⟩ := List.mem_map.mp hx
      exact List.mem_map_of_mem _ (h2 p hp).1
    · intro hx
      obtain ⟨b, hb, rfl⟩ := List.mem_map.mp hx
      rcases h3 b hb with hmem | hmem
      · simp at hmem
      · exact hmem
  calc (uniquePointsAux [] pts).1.length
      = ((uniquePointsAux [] pts).1.map Point.X).length := (List.length_map _ _).symm
    _ = ((uniquePointsAux [] pts).1.map Point.X).toFinset.card :=
        (List.toFinset_card_of_nodup h1).symm
    _ = (pts.map Point.X).toFinset.card := by rw [hset]

theorem interpolateConst_cases (degree : Nat) (mod? : Option Int) (points : List Point) :
    InterpolateConst degree mod? points =
      (if degree < 1 then .error .invalidDegree
       else if ¬ goProbablyPrime mod? then .error .invalidModulus
       else if ¬ PointsConsistent points then .error .inconsistentPoints
       else if (points.map Point.X).toFinset.card < degree + 1 then .error .tooFewPoints
       else
         match icSum (mod?.getD 0) ((uniquePoints points).1.take (degree + 1)) with
         | none => .error .panicked
         | some L0 => .ok L0) := by
  show (if degree < 1 then (Except.error PolyErr.invalidDegree : Except PolyErr Int)
    else if ¬ goProbablyPrime mod? then .error .invalidModulus
    else if (uniquePoints points).2 then .error .inconsistentPoints
    else if (uniquePoints points).1.length < degree + 1 then .error .tooFewPoints
    else
      match icSum (mod?.getD 0) ((uniquePoints points).1.take (degree + 1)) with
      | none => .error .panicked
      | some L0 => .ok L0) = _
  by_cases h1 : degree < 1
  · rw [if_pos h1, if_pos h1]
  · rw [if_neg h1, if_neg h1]
    by_cases h2 : goProbablyPrime mod? = true
    · rw [if_neg (not_not_intro h2), if_neg (not_not_intro h2)]
      by_cases h3 : PointsConsistent points
      · rw [if_neg (fun hf => ((uniquePoints_flag points).mp hf) h3),
          if_neg (not_not_intro h3), uniquePoints_length]
      · rw [if_pos ((uniquePoints_flag points).mpr h3), if_pos h3]
    · rw [if_pos h2, if_pos h2]

theorem interpolate_cases (degree : Nat) (mod? : Option Int) (points : List Point) :
    Interpolate degree mod? points =
      (if degree < 1 then .error .invalidDegree
       else if ¬ goProbablyPrime mod? then .error .invalidModulus
       else if ¬ PointsConsistent points then .error .inconsistentPoints
       else if (points.map Point.X).toFinset.card < degree + 1 then .error .tooFewPoints
       else
         match lagrangePolys (mod?.getD 0) ((uniquePoints points).1.take (degree + 1))
             (List.range ((uniquePoints points).1.take (degree + 1)).length) with
         | none => .error .panicked
         | some lps => SumPolynomials mod? lps) := by
  show (if degree < 1 then (Except.error PolyErr.invalidDegree : Except PolyErr Poly)
    else if ¬ goProbablyPrime mod? then .error .invalidModulus
    else if (uniquePoints points).2 then .error .inconsistentPoints
    else if (uniquePoints points).1.length < degree + 1 then .error .tooFewPoints
    else
      match lagrangePolys (mod?.getD 0) ((uniquePoints points).1.take (degree + 1))
          (List.range ((uniquePoints points).1.take (degree + 1)).length) with
      | none => .error .panicked
      | some lps => SumPolynomials mod? lps) = _
  by_cases h1 : degree < 1
  · rw [if_pos h1, if_pos h1]
  · rw [if_neg h1, if_neg h1]
    by_cases h2 : goProbablyPrime mod? = true
    · rw [if_neg (not_not_intro h2), if_neg (not_not_intro h2)]
      by_cases h3 : PointsConsistent points
      · rw [if_neg (fun hf => ((uniquePoints_flag points).mp hf) h3),
          if_neg (not_not_intro h3), uniquePoints_length]
      · rw [if_pos ((uniquePoints_flag points).mpr h3), if_pos h3]
    · rw [if_pos h2, if_pos h2]

/-! ## Claim theorems -/

/-- C9 (amended): the newer `shamir.Combine` returns no reconstructed bytes
alongside an error: whenever the error component is set, the data component
is empty.  (The older variant violates this on the wrong-size path, see the
counterexample.) -/
theorem C9_combine_no_partial (shares : List Share)
    (h : (Combine shares).2.isSome = true) : (Combine shares).1 = [] := by
  rw [Combine] at h ⊢
  cases hc : combineSharePoints shares with
  | error e => rfl
  | ok r =>
    show (match interpChunks r.2 r.1 with
      | Except.error e => (([] : List Nat), some e)
      | Except.ok chunks =>
        match combineChunks r.2 chunks with
        | Except.error e => ([], some e)
        | Except.ok internalSecret => (internalSecret.Data, none)).1 = []
    cases hi : interpChunks r.2 r.1 with
    | error e => rfl
    | ok chunks =>
      show (match combineChunks r.2 chunks with
        | Except.error e => (([] : List Nat), some e)
        | Except.ok internalSecret => (internalSecret.Data, none)).1 = []
      cases hcc : combineChunks r.2 chunks with
      | error e => rfl
      | ok s => simp [hc, hi, hcc] at h

/-- C10: `EvaluateMod` with a prime modulus `m` leaves the polynomial's
coefficients unchanged, overwrites the evaluation-point argument in place
with `x0 mod m`, and for `x0 ≥ m` this changes the caller's value. -/
theorem C10_evaluateMod_frame (f : Poly) (x0 m : Int)
    (hmr : millerRabin m = true) (hge : m ≤ x0) :
    (EvaluateMod f x0 (some m)).1 = f ∧
    (EvaluateMod f x0 (some m)).2.1 = x0 % m ∧
    (EvaluateMod f x0 (some m)).2.1 ≠ x0 := by
  have h2 : 2 ≤ m := millerRabin_two_le hmr
  rw [EvaluateMod_eq f x0 m hmr]
  refine ⟨rfl, rfl, ?_⟩
  show x0 % m ≠ x0
  have : x0 % m < m := Int.emod_lt_of_pos x0 (by omega)
  omega

/-- C3 (amended): a share whose signature does not verify is not merely
marked bad and excluded: `Combine` aborts with `ErrCombineBadSignature`.
Stated for a bad-signature share in first position (the first share always
passes the preceding metadata checks against itself). -/
theorem C3_bad_signature_rejected (s0 : Share) (rest : List Share)
    (hpk : s0.Safe.Meta.PublicKey.length = 32)
    (hbad : ¬ (s0.Signature.signerPub = s0.Safe.Meta.PublicKey ∧
      s0.Signature.signed = s0.Safe)) :
    Combine (s0 :: rest) = ([], some .combineBadSignature) := by
  have hgood : shareGood s0 = false := by
    unfold shareGood
    rw [SharePayload.Verify, if_neg (not_not_intro hpk)]
    exact decide_eq_false hbad
  have hg0 : (GroupShares (s0 :: rest)).getD 0 ⟨0, false⟩ = ⟨1, !shareGood s0⟩ := by
    rw [GroupShares]
    show (ShareGrouping.mk (0 + 1) (!shareGood s0) ::
      groupSharesAux (0 + 1) [(keyIdent s0.Safe.Meta.PublicKey, 0 + 1)] rest).getD 0
        ⟨0, false⟩ = _
    rw [List.getD_cons_zero]
    norm_num
  have hcsp : combineSharePoints (s0 :: rest) = .error .combineBadSignature := by
    rw [combineSharePoints, if_neg (by simp)]
    have hloop : cspLoop (s0 :: rest) (GroupShares (s0 :: rest)) s0
        s0.Safe.Ys.length ((s0 :: rest).enum) [] = .error .combineBadSignature := by
      show (if s0.Safe.Meta ≠ s0.Safe.Meta then Except.error GoErr.combineMismatchShares
        else if s0.Safe.Ys.length ≠ s0.Safe.Ys.length then
          Except.error GoErr.combineMismatchShares
        else if ((GroupShares (s0 :: rest)).getD 0 ⟨0, false⟩).GroupIdx ≠
            ((GroupShares (s0 :: rest)).getD 0 ⟨0, false⟩).GroupIdx then
          Except.error GoErr.combineMismatchShares
        else if ((GroupShares (s0 :: rest)).getD 0 ⟨0, false⟩).Bad then
          Except.error GoErr.combineBadSignature
        else
          match ([] : List (Int × Nat)).find? (fun kv => kv.1 == s0.Safe.X) with
          | none =>
            cspLoop (s0 :: rest) (GroupShares (s0 :: rest)) s0 s0.Safe.Ys.length
              (List.enumFrom 1 rest) ([] ++ [(s0.Safe.X, 0)])
          | some kv =>
            if s0 ≠ (s0 :: rest).getD kv.2 dummyShare then
              Except.error GoErr.combineMismatchShares
            else
              cspLoop (s0 :: rest) (GroupShares (s0 :: rest)) s0 s0.Safe.Ys.length
                (List.enumFrom 1 rest) []) = _
      rw [if_neg (not_not_intro rfl), if_neg (not_not_intro rfl),
        if_neg (not_not_intro rfl), if_pos (by rw [hg0, hgood]; rfl)]
    show (match cspLoop (s0 :: rest) (GroupShares (s0 :: rest)) s0
        s0.Safe.Ys.length ((s0 :: rest).enum) [] with
      | Except.error e => (Except.error e : Except GoErr (List (List Point) × ShareMeta))
      | Except.ok m =>
        if ((m.map (fun kv : Int × Nat => (s0 :: rest).getD kv.2 dummyShare)).length <
            ((m.map (fun kv : Int × Nat => (s0 :: rest).getD kv.2 dummyShare)).getD 0
              dummyShare).Safe.Meta.K) then
          Except.error GoErr.combineTooFewShares
        else
          Except.ok (chunkedPointsOf s0.Safe.Ys.length
            ((m.map (fun kv : Int × Nat => (s0 :: rest).getD kv.2 dummyShare)).take
              ((m.map (fun kv : Int × Nat => (s0 :: rest).getD kv.2 dummyShare)).getD 0
                dummyShare).Safe.Meta.K),
            ((m.map (fun kv : Int × Nat => (s0 :: rest).getD kv.2 dummyShare)).getD 0
              dummyShare).Safe.Meta)) = _
    rw [hloop]
  rw [Combine, hcsp]

/-- C4 (amended): a successful `Split` with at least `n` tape draws returns
exactly `n` shares, the `i`-th share's `x` being the `i`-th draw reduced mod
the prime — with no pairwise-distinctness guarantee (see the
counterexample). -/
theorem C4_split_shape (k n : Nat) (secret : List Nat) (tape : SplitTape)
    (hkn : k ≤ n) (hk1 : 1 ≤ k)
    (hmr : millerRabin tape.prime = true)
    (hbig : maxBlockValue DefaultBlockSize < tape.prime)
    (hcoeffs : tape.coeffs ≠ [])
    (hxs : n ≤ tape.xs.length) :
    ∃ shares, Split k n secret tape = .ok shares ∧ shares.length = n ∧
      ∀ i, i < n →
        (shares.getD i dummyShare).Safe.X = tape.xs.getD i 0 % tape.prime := by
  refine ⟨_, Split_eq k n secret tape hkn hk1 hmr hbig hcoeffs, ?_, ?_⟩
  · rw [List.length_map, List.length_take]
    omega
  · intro i hi
    have hi1 : i < (tape.xs.take n).length := by
      rw [List.length_take]
      omega
    rw [List.getD_eq_getElem _ _ (by simpa using hi1), List.getElem_map]
    show (tape.xs.take n).get ⟨i, hi1⟩ % tape.prime = tape.xs.getD i 0 % tape.prime
    rw [← List.getD_eq_get (tape.xs.take n) 0 hi1, getD_take 0 tape.xs n i hi]

theorem decodeBigInt_encode (x : Int) (hx : 0 ≤ x) :
    decodeBigInt (encodeBigInt x) = .ok x := by
  rw [decodeBigInt, encodeBigInt, b64decode_encode _ (natBytes_bytes x.natAbs)]
  show Except.ok (Int.ofNat (bytesToNat (natBytes x.natAbs))) = Except.ok x
  rw [bytesToNat_natBytes, Int.ofNat_eq_natCast, Int.natAbs_of_nonneg hx]

theorem decodeYs_encode (ys : List Int) (hys : ∀ y ∈ ys, 0 ≤ y) :
    decodeYs (ys.map encodeBigInt) = .ok ys := by
  induction ys with
  | nil => rfl
  | cons y rest ih =>
    show (match decodeBigInt (encodeBigInt y) with
      | .error e => (Except.error e : Except GoErr (List Int))
      | .ok v =>
        match decodeYs (rest.map encodeBigInt) with
        | .error e => Except.error e
        | .ok vs => Except.ok (v :: vs)) = _
    rw [decodeBigInt_encode y (hys y (by simp)), ih (fun a ha => hys a (by simp [ha]))]

theorem wire_roundtrip_packet (p : Packet)
    (hn : ∀ b ∈ p.Nonce, b < 256) (hc : ∀ b ∈ p.Ciphertext, b < 256) :
    wirePacket.packet (Packet.wire p) = .ok p := by
  have h1 := b64decode_encode p.Nonce hn
  have h2 := b64decode_encode p.Ciphertext hc
  simp only [Packet.wire, wirePacket.packet, h1, h2]

theorem wire_roundtrip_payload (sp : SharePayload)
    (hP : 0 ≤ sp.Meta.P) (hpk32 : sp.Meta.PublicKey.length = 32)
    (hpkB : ∀ b ∈ sp.Meta.PublicKey, b < 256)
    (hX : 0 ≤ sp.X) (hYs : ∀ y ∈ sp.Ys, 0 ≤ y) :
    wireSharePayload.sharePayload (SharePayload.wire sp) = .ok sp := by
  have h1 : decodeBigInt (encodeBigInt sp.Meta.P) = .ok sp.Meta.P :=
    decodeBigInt_encode _ hP
  have h2 : sigPrefix.isPrefixOf (keyIdent sp.Meta.PublicKey) = true := by
    rw [keyIdent]
    exact List.isPrefixOf_iff_prefix.mpr (List.prefix_append _ _)
  have h3 : (keyIdent sp.Meta.PublicKey).drop sigPrefix.length =
      b64encode sp.Meta.PublicKey := by
    rw [keyIdent]
    exact List.drop_left _ _
  have h4 : b64decode (b64encode sp.Meta.PublicKey) = some sp.Meta.PublicKey :=
    b64decode_encode _ hpkB
  have h5 : decodeBigInt (encodeBigInt sp.X) = .ok sp.X := decodeBigInt_encode _ hX
  have h6 : decodeYs (sp.Ys.map encodeBigInt) = .ok sp.Ys := decodeYs_encode _ hYs
  simp only [SharePayload.wire, wireSharePayload.sharePayload, h1, h2, h3, h4, h5, h6,
    hpk32]
  simp

theorem sumPolynomials_cases (mod? : Option Int) (lps : List Poly)
    (h : goProbablyPrime mod? = true) :
    (∃ q, SumPolynomials mod? lps = .ok q) ∨ SumPolynomials mod? lps = .error .panicked := by
  rw [SumPolynomials, if_neg (not_not_intro h)]
  by_cases hany : (lps.any fun poly =>
      decide ((List.foldl (fun d poly => max d (DegreeP poly)) 0 lps) + 1 <
        List.length poly)) = true
  · refine Or.inr ?_
    show (if (lps.any fun poly =>
          decide ((List.foldl (fun d poly => max d (DegreeP poly)) 0 lps) + 1 <
            List.length poly)) = true then Except.error PolyErr.panicked
        else Except.ok (List.foldl (fun P poly => addInto (mod?.getD 0) P poly)
          (List.replicate ((List.foldl (fun d poly => max d (DegreeP poly)) 0 lps) + 1) 0)
          lps)) = Except.error PolyErr.panicked
    rw [if_pos hany]
  · refine Or.inl ⟨List.foldl (fun P poly => addInto (mod?.getD 0) P poly)
      (List.replicate ((List.foldl (fun d poly => max d (DegreeP poly)) 0 lps) + 1) 0)
      lps, ?_⟩
    show (if (lps.any fun poly =>
          decide ((List.foldl (fun d poly => max d (DegreeP poly)) 0 lps) + 1 <
            List.length poly)) = true then Except.error PolyErr.panicked
        else Except.ok (List.foldl (fun P poly => addInto (mod?.getD 0) P poly)
          (List.replicate ((List.foldl (fun d poly => max d (DegreeP poly)) 0 lps) + 1) 0)
          lps)) =
      Except.ok (List.foldl (fun P poly => addInto (mod?.getD 0) P poly)
        (List.replicate ((List.foldl (fun d poly => max d (DegreeP poly)) 0 lps) + 1) 0)
        lps)
    rw [if_neg hany]

/-- C5: over a modulus the code's primality test accepts (with `p` prime)
and at least `degree + 1` points with pairwise-distinct `x` (as integers and
mod `p`) lying mod `p` on an integer polynomial `f` with at most
`degree + 1` coefficients, `InterpolateConst degree p points` succeeds and
returns the canonical representative of `f(0) mod p`, computed as the closed
form `L(0) = Σ_j y_j · Π_{m≠j} x_m / (x_m − x_j) (mod p)` over the first
`degree + 1` points. -/
theorem C5_interpolateConst_correct (degree : Nat) (p : Int) (f : List Int)
    (pts : List Point)
    (hdeg : 1 ≤ degree) (hmr : millerRabin p = true) (hp : p.toNat.Prime)
    (hnd : (pts.map Point.X).Nodup)
    (hmod : ∀ i j, i < pts.length → j < pts.length → i ≠ j →
      (((pts.getD i ⟨0, 0⟩).X - (pts.getD j ⟨0, 0⟩).X : Int) : ZMod p.toNat) ≠ 0)
    (hlen : degree + 1 ≤ pts.length)
    (hflen : f.length ≤ degree + 1)
    (hcurve : ∀ pt ∈ pts,
      ((pt.Y : Int) : ZMod p.toNat) = ((hornerEval f pt.X : Int) : ZMod p.toNat)) :
    ∃ L0, InterpolateConst degree (some p) pts = .ok L0 ∧ 0 ≤ L0 ∧ L0 < p ∧
      ((L0 : Int) : ZMod p.toNat) = ((hornerEval f 0 : Int) : ZMod p.toNat) ∧
      ((L0 : Int) : ZMod p.toNat) =
        ∑ j ∈ Finset.range (pts.take (degree + 1)).length,
          (((pts.take (degree + 1)).getD j ⟨0, 0⟩).Y : ZMod p.toNat) *
            ∏ m ∈ (Finset.range (pts.take (degree + 1)).length).erase j,
              ((((pts.take (degree + 1)).getD m ⟨0, 0⟩).X : ZMod p.toNat) *
                ((((pts.take (degree + 1)).getD m ⟨0, 0⟩).X : ZMod p.toNat) -
                 (((pts.take (degree + 1)).getD j ⟨0, 0⟩).X : ZMod p.toNat))⁻¹) := by
  have hge : 2 ≤ p := millerRabin_two_le hmr
  obtain ⟨L0, hIC, h0, hlt, hc⟩ :=
    interpolateConst_eval degree p f pts hdeg hmr hp hnd hmod hlen hflen hcurve
  set sel := pts.take (degree + 1) with hsel
  have hslen : sel.length = degree + 1 := by
    rw [hsel, List.length_take]
    omega
  have hselD : ∀ m, m < degree + 1 → sel.getD m ⟨0, 0⟩ = pts.getD m ⟨0, 0⟩ := by
    intro m hm
    rw [hsel]
    exact getD_take _ _ _ _ hm
  have hinv : ∀ j m, j < sel.length → m < sel.length → m ≠ j →
      (((sel.getD m ⟨0, 0⟩).X - (sel.getD j ⟨0, 0⟩).X : Int) : ZMod p.toNat) ≠ 0 := by
    intro j m hj hm hmj
    rw [hslen] at hj hm
    rw [hselD m hm, hselD j hj]
    exact hmod m j (by omega) (by omega) hmj
  have hne : sel ≠ [] := by
    intro h
    rw [h] at hslen
    simp at hslen
  obtain ⟨w, hw, hw0, hwlt, hwc⟩ := icSum_spec p hge hp sel hne hinv
  have hIC2 : InterpolateConst degree (some p) pts = .ok w := by
    rw [InterpolateConst, if_neg (by omega : ¬ degree < 1),
      if_neg (by simp [goProbablyPrime, hmr])]
    simp only [uniquePoints_of_nodup pts hnd, Option.getD_some]
    rw [if_neg (by simp), if_neg (by omega : ¬ pts.length < degree + 1), ← hsel, hw]
  have hLw : L0 = w := by
    rw [hIC] at hIC2
    exact Except.ok.inj hIC2
  subst hLw
  exact ⟨L0, hIC, h0, hlt, by rw [hc, hornerEval_zero], hwc⟩

/-- C6 (amended): for both `InterpolateConst` and `Interpolate`, the four
spec-listed error values occur exactly under the four spec-listed conditions
(checked in the code's priority order: degree, modulus, inconsistent points,
too few unique points); when none of the conditions hold the functions do
not always succeed — each either succeeds or aborts on an internal panic
(the panic is reachable: see the counterexample). -/
theorem C6_interp_error_characterization (degree : Nat) (mod? : Option Int)
    (points : List Point) :
    (InterpolateConst degree mod? points =
      (if degree < 1 then .error .invalidDegree
       else if ¬ goProbablyPrime mod? then .error .invalidModulus
       else if ¬ PointsConsistent points then .error .inconsistentPoints
       else if (points.map Point.X).toFinset.card < degree + 1 then
         .error .tooFewPoints
       else
         match icSum (mod?.getD 0) ((uniquePoints points).1.take (degree + 1)) with
         | none => .error .panicked
         | some L0 => .ok L0)) ∧
    (Interpolate degree mod? points =
      (if degree < 1 then .error .invalidDegree
       else if ¬ goProbablyPrime mod? then .error .invalidModulus
       else if ¬ PointsConsistent points then .error .inconsistentPoints
       else if (points.map Point.X).toFinset.card < degree + 1 then
         .error .tooFewPoints
       else
         match lagrangePolys (mod?.getD 0) ((uniquePoints points).1.take (degree + 1))
             (List.range ((uniquePoints points).1.take (degree + 1)).length) with
         | none => .error .panicked
         | some lps => SumPolynomials mod? lps)) ∧
    (¬ degree < 1 → goProbablyPrime mod? = true → PointsConsistent points →
      degree + 1 ≤ (points.map Point.X).toFinset.card →
      ((∃ v, InterpolateConst degree mod? points = .ok v) ∨
        InterpolateConst degree mod? points = .error .panicked) ∧
      ((∃ q, Interpolate degree mod? points = .ok q) ∨
        Interpolate degree mod? points = .error .panicked)) := by
  refine ⟨interpolateConst_cases degree mod? points,
    interpolate_cases degree mod? points, ?_⟩
  intro h1 h2 h3 h4
  constructor
  · rw [interpolateConst_cases, if_neg h1, if_neg (not_not_intro h2),
      if_neg (not_not_intro h3), if_neg (by omega)]
    split
    · exact Or.inr rfl
    · exact Or.inl ⟨_, rfl⟩
  · rw [interpolate_cases, if_neg h1, if_neg (not_not_intro h2),
      if_neg (not_not_intro h3), if_neg (by omega)]
    split
    · exact Or.inr rfl
    · exact sumPolynomials_cases mod? _ h2

/-! ## Concrete counterexamples and witnesses -/

/-- C1 counterexample: for `k = n = 1` the split succeeds but combining the
returned share fails with the wrapped invalid-degree error (the claim
promises the secret back for every `1 ≤ k ≤ n ≤ 32`). -/
theorem C1_counterexample :
    Split 1 1 secret0 tape0 =
      .ok ((tape0.xs.take 1).map
        (shareOf (splitMeta 1 secret0 tape0) (splitPolys 1 secret0 tape0) tape0.priv)) ∧
    Combine ((tape0.xs.take 1).map
        (shareOf (splitMeta 1 secret0 tape0) (splitPolys 1 secret0 tape0) tape0.priv)) =
      ([], some (.interp .invalidDegree)) :=
  ⟨by decide, by decide⟩

theorem C1_witness : Combine shares0 = (secret0, none) :=
  split_sublist_combine 2 2 secret0 tape0 shares0 shares0 (by decide) (by decide)
    (by decide) P0_prime (by decide) (by decide) (by decide) (by decide) (by decide)
    (by decide) (by decide) (by decide) (List.Sublist.refl shares0) (by decide)

theorem C2_witness : Combine (shares0.take 1) = ([], some .combineTooFewShares) :=
  split_sublist_combine_toofew 2 2 secret0 tape0 shares0 (shares0.take 1)
    (by decide) (by decide) (by decide) (by decide) (by decide) (by decide)
    (by decide) (by decide) (List.take_sublist 1 shares0) (by decide)

/-- C3 counterexample: the two honest shares reconstruct the secret, but
adding one bad-signature share to the set aborts the whole combination with
`ErrCombineBadSignature` instead of excluding the bad share. -/
theorem C3_counterexample :
    Combine shares0 = (secret0, none) ∧
    Combine (badShare0 :: shares0) = ([], some .combineBadSignature) :=
  ⟨by decide, by decide⟩

theorem C3_witness : Combine (badShare0 :: shares0) = ([], some .combineBadSignature) :=
  C3_bad_signature_rejected badShare0 shares0 (by decide) (by decide)

/-- C4 counterexample: a tape whose two `x` draws coincide yields two shares
with the same `x`-coordinate: `Split` enforces no distinctness. -/
theorem C4_counterexample :
    Split 2 2 secret0 tape1 = .ok shares1 ∧ shares1.length = 2 ∧
      (shares1.getD 0 dummyShare).Safe.X = (shares1.getD 1 dummyShare).Safe.X :=
  ⟨by decide, by decide, by decide⟩

theorem C4_witness :
    ∃ shares, Split 2 2 secret0 tape0 = .ok shares ∧ shares.length = 2 ∧
      ∀ i, i < 2 →
        (shares.getD i dummyShare).Safe.X = tape0.xs.getD i 0 % tape0.prime :=
  C4_split_shape 2 2 secret0 tape0 (by decide) (by decide) (by decide) (by decide)
    (by decide) (by decide)

theorem C5_witness :
    ∃ L0, InterpolateConst 1 (some 7) [⟨1, 5⟩, ⟨2, 0⟩] = .ok L0 ∧ 0 ≤ L0 ∧ L0 < 7 ∧
      ((L0 : Int) : ZMod (7 : Int).toNat) =
        ((hornerEval [3, 2] 0 : Int) : ZMod (7 : Int).toNat) := by
  obtain ⟨L0, h1, h2, h3, h4, _⟩ := C5_interpolateConst_correct 1 7 [3, 2]
    [⟨1, 5⟩, ⟨2, 0⟩] (by decide) (by decide) (by decide) (by decide)
    (by
      intro i j hi hj hij
      simp only [List.length_cons, List.length_nil] at hi hj
      interval_cases i <;> interval_cases j <;>
        first
        | exact absurd rfl hij
        | decide)
    (by decide) (by decide) (by decide)
  exact ⟨L0, h1, h2, h3, h4⟩

/-- C6 counterexample: two consistent points with distinct integer `x` that
collide mod `p` meet none of the four spec-listed error conditions, yet
`InterpolateConst` hits the `nil` result of `big.Int.ModInverse` and the
subsequent `Mul` panics (no error return at all). -/
theorem C6_counterexample :
    InterpolateConst 1 (some 7) [⟨0, 1⟩, ⟨7, 1⟩] = .error .panicked ∧
    ¬ (1 : Nat) < 1 ∧ goProbablyPrime (some 7) = true ∧
    PointsConsistent [(⟨0, 1⟩ : Point), ⟨7, 1⟩] ∧
    2 ≤ (([(⟨0, 1⟩ : Point), ⟨7, 1⟩]).map Point.X).toFinset.card :=
  ⟨by decide, by decide, by decide, by decide, by decide⟩

/-- C8: for each artifact wire type — the signed share payload, the AEAD
packet, and the internal secret format — unmarshalling inverts marshalling,
for values the repo itself produces: byte fields below 256, a 32-byte
public key, and non-negative big integers (`big.Int.Bytes` drops the sign —
see the counterexample). -/
theorem C8_wire_roundtrip (sp : SharePayload) (pkt : Packet) (sf : secretFormat)
    (hP : 0 ≤ sp.Meta.P) (hpk32 : sp.Meta.PublicKey.length = 32)
    (hpkB : ∀ b ∈ sp.Meta.PublicKey, b < 256) (hX : 0 ≤ sp.X)
    (hYs : ∀ y ∈ sp.Ys, 0 ≤ y)
    (hn : ∀ b ∈ pkt.Nonce, b < 256) (hc : ∀ b ∈ pkt.Ciphertext, b < 256)
    (hk : ∀ b ∈ sf.Key, b < 256) (hd : ∀ b ∈ sf.Data, b < 256) :
    wireSharePayload.sharePayload (SharePayload.wire sp) = .ok sp ∧
    wirePacket.packet (Packet.wire pkt) = .ok pkt ∧
    parseSecretFormat (marshalSecretFormat sf) = some sf :=
  ⟨wire_roundtrip_payload sp hP hpk32 hpkB hX hYs,
   wire_roundtrip_packet pkt hn hc,
   parseSecretFormat_marshal sf hk hd⟩

theorem C8_witness :
    wireSharePayload.sharePayload
        (SharePayload.wire ⟨⟨113, 16, 7, 2, List.range 32⟩, 5, [1, 2]⟩) =
      .ok ⟨⟨113, 16, 7, 2, List.range 32⟩, 5, [1, 2]⟩ ∧
    wirePacket.packet (Packet.wire ⟨[1, 2], [3], ⟨[([4], [5])]⟩⟩) =
      .ok ⟨[1, 2], [3], ⟨[([4], [5])]⟩⟩ ∧
    parseSecretFormat (marshalSecretFormat ⟨0, [1, 2], [3]⟩) = some ⟨0, [1, 2], [3]⟩ :=
  C8_wire_roundtrip ⟨⟨113, 16, 7, 2, List.range 32⟩, 5, [1, 2]⟩
    ⟨[1, 2], [3], ⟨[([4], [5])]⟩⟩ ⟨0, [1, 2], [3]⟩ (by decide) (by decide) (by decide)
    (by decide) (by decide) (by decide) (by decide) (by decide) (by decide)

/-- C8 counterexample: a payload with negative `x` does not round-trip:
`big.Int.Bytes` drops the sign, so the decoded share carries `x = 1` instead
of `x = −1`. -/
theorem C8_counterexample :
    wireSharePayload.sharePayload (SharePayload.wire spNeg) ≠ .ok spNeg ∧
    wireSharePayload.sharePayload (SharePayload.wire spNeg) =
      .ok ⟨⟨1, 16, 7, 1, List.range 32⟩, 1, []⟩ :=
  ⟨by decide, by decide⟩

theorem C9_witness :
    (Combine ([] : List Share)).2.isSome = true ∧ (Combine ([] : List Share)).1 = [] :=
  ⟨by decide, C9_combine_no_partial [] (by decide)⟩

/-- C9 counterexample: the older `Combine` variant returns the reconstructed
bytes *alongside* `ErrCombineWrongSize` when the size check fails — the
caller receives partial secret data together with an error. -/
theorem C9_counterexample :
    CombineOld sharesO0 = ([5], some .combineWrongSize) ∧
    (CombineOld sharesO0).1 ≠ [] :=
  ⟨by decide, by decide⟩

theorem C10_witness :
    (EvaluateMod [1, 2] 10 (some 7)).1 = [1, 2] ∧
    (EvaluateMod [1, 2] 10 (some 7)).2.1 = 10 % 7 ∧
    (EvaluateMod [1, 2] 10 (some 7)).2.1 ≠ 10 :=
  C10_evaluateMod_frame [1, 2] 10 7 (by decide) (by decide)

end Paperback
